import Mathlib

/-
Verification of the rustdb storage-engine core: the slotted table page
(src/crates/storage/src/page/table_page.rs), the LRU-K replacer
(src/handin/lru_k_replacer.rs) and the heap-scan iterator
(src/handin/table_tuple_iterator.rs), shallowly embedded in Lean.

Machine integers are modelled as Nat with explicit truncation where the Rust
code casts; a Rust panic (slice out of bounds, integer over/underflow in a
debug build, unwrap of None) is modelled as the error value DbError.panic.
-/

/-- Error taxonomy of the storage engine; `panic` stands for a Rust panic
(out-of-bounds indexing or checked-arithmetic failure), which is not a
recoverable `Error` value in the source but must be distinguished from
success in the embedding. -/
inductive DbError where
  | invalidInput : DbError
  | outOfSpace : DbError
  | ioError : DbError
  | panic : DbError
deriving DecidableEq, Repr

/-- Modelled from the spec: `PAGE_SIZE` is a power-of-two constant chosen by
the page layer (canonically 4096); it is not part of src/. -/
def PAGE_SIZE : Nat := 4096

/-- Size of `TablePageHeader` = { next_page_id: u32, tuple_cnt: u32,
deleted_tuple_cnt: u32, 4 bytes padding }. -/
def TABLE_PAGE_HEADER_SIZE : Nat := 16

/-- Size of `TupleInfo` = { offset: u16, size_bytes: u16,
metadata: { is_deleted: u8, 1 byte padding } }. -/
def TUPLE_INFO_SIZE : Nat := 6

/-- End of the slot directory for a given tuple count:
`TABLE_PAGE_HEADER_SIZE + cnt * TUPLE_INFO_SIZE`. -/
def slotsEnd (cnt : Nat) : Nat := TABLE_PAGE_HEADER_SIZE + TUPLE_INFO_SIZE * cnt

/-- A byte of a byte store, normalised to the u8 range. -/
def byteAt (d : Nat → Nat) (i : Nat) : Nat := d i % 256

/-- Little-endian u16 read at a byte offset. -/
def read16 (d : Nat → Nat) (off : Nat) : Nat :=
  byteAt d off + 256 * byteAt d (off + 1)

/-- Little-endian u32 read at a byte offset. -/
def read32 (d : Nat → Nat) (off : Nat) : Nat :=
  byteAt d off + 256 * byteAt d (off + 1) + 65536 * byteAt d (off + 2) +
    16777216 * byteAt d (off + 3)

/-- Write one byte. -/
def write8 (d : Nat → Nat) (off v : Nat) : Nat → Nat :=
  fun i => if i = off then v % 256 else d i

/-- Little-endian u16 write. -/
def write16 (d : Nat → Nat) (off v : Nat) : Nat → Nat :=
  fun i =>
    if i = off then v % 256
    else if i = off + 1 then v / 256 % 256
    else d i

/-- Little-endian u32 write. -/
def write32 (d : Nat → Nat) (off v : Nat) : Nat → Nat :=
  fun i =>
    if i = off then v % 256
    else if i = off + 1 then v / 256 % 256
    else if i = off + 2 then v / 65536 % 256
    else if i = off + 3 then v / 16777216 % 256
    else d i

/-- Write `n` bytes taken from `src 0 .. src (n-1)` at offset `off`
(the semantics of `copy_from_slice`). -/
def writeBytes (d : Nat → Nat) (off : Nat) (src : Nat → Nat) (n : Nat) : Nat → Nat :=
  fun i => if off ≤ i ∧ i < off + n then src (i - off) % 256 else d i

/-- A tuple: an opaque byte string of known length (rustdb_catalog::tuple::Tuple). -/
structure Tuple where
  size : Nat
  data : Nat → Nat

/-- TupleMetadata = { is_deleted: u8, 1 byte padding }; only the flag byte is
observable through the accessors. -/
structure TupleMetadata where
  is_deleted_u8 : Nat
deriving DecidableEq, Repr

/-- `TupleMetadata::new(is_deleted)`. -/
def TupleMetadata.mk_new (b : Bool) : TupleMetadata := ⟨if b then 1 else 0⟩

/-- `TupleMetadata::is_deleted(&self) = self.is_deleted != 0`. -/
def TupleMetadata.is_deleted (m : TupleMetadata) : Bool := m.is_deleted_u8 ≠ 0

/-- A record identifier: (page id, slot id); spec section 4.1. -/
structure RecordId where
  page_id : Nat
  slot_id : Nat
deriving DecidableEq, Repr

/-- Modelled from the spec: the lossless u64 packing (page << 32) | slot of a
RecordId (src/crates/storage/src/record_id.rs is not under src/). -/
def RecordId.pack (r : RecordId) : Nat := r.page_id * 4294967296 + r.slot_id

/-- A pinned buffer-pool frame: its page id and PAGE_SIZE bytes of data. -/
structure PageFrame where
  page_id : Nat
  data : Nat → Nat

/-- `TablePage::next_page_id` (header field at bytes 0..4). -/
def next_page_id (p : PageFrame) : Nat := read32 p.data 0

/-- `TablePage::tuple_count` (header field at bytes 4..8). -/
def tuple_count (p : PageFrame) : Nat := read32 p.data 4

/-- The header's `deleted_tuple_cnt` field (bytes 8..12). -/
def deleted_tuple_cnt (p : PageFrame) : Nat := read32 p.data 8

/-- Offset field of slot `i` of the directory. -/
def slotOffset (p : PageFrame) (i : Nat) : Nat :=
  read16 p.data (TABLE_PAGE_HEADER_SIZE + TUPLE_INFO_SIZE * i)

/-- Size field of slot `i` of the directory. -/
def slotSize (p : PageFrame) (i : Nat) : Nat :=
  read16 p.data (TABLE_PAGE_HEADER_SIZE + TUPLE_INFO_SIZE * i + 2)

/-- Metadata (is_deleted) byte of slot `i` of the directory. -/
def slotMetaByte (p : PageFrame) (i : Nat) : Nat :=
  byteAt p.data (TABLE_PAGE_HEADER_SIZE + TUPLE_INFO_SIZE * i + 4)

/-- `TablePage::init_header(next_page_id)`: writes
{ next_page_id, tuple_cnt = 0, deleted_tuple_cnt = 0, zero padding }. -/
def init_header (p : PageFrame) (next : Nat) : PageFrame :=
  { p with
    data := write32 (write32 (write32 (write32 p.data 0 next) 4 0) 8 0) 12 0 }

/-- `TablePage::validate_record_id(rid)`: InvalidInput unless
`rid.page_id == self.page_id && rid.slot_id < tuple_cnt`.  This helper exists
in the source but is never called by `get_tuple` or `update_tuple_metadata`. -/
def validate_record_id (p : PageFrame) (rid : RecordId) : Except DbError Unit :=
  if rid.page_id ≠ p.page_id ∨ tuple_count p ≤ rid.slot_id then
    .error .invalidInput
  else
    .ok ()

/-- `TablePage::get_tuple(rid)`: reads the slot (without validating `rid`; the
source indexes `slot_array()[slot_id]` directly, so an out-of-range slot id or
a corrupt directory is a panic) and copies the payload bytes out. -/
def get_tuple (p : PageFrame) (rid : RecordId) : Except DbError (TupleMetadata × Tuple) :=
  let cnt := tuple_count p
  if slotsEnd cnt ≤ PAGE_SIZE then
    if rid.slot_id < cnt then
      let off := slotOffset p rid.slot_id
      let sz := slotSize p rid.slot_id
      if off + sz ≤ PAGE_SIZE then
        .ok (⟨slotMetaByte p rid.slot_id⟩, ⟨sz, fun i => byteAt p.data (off + i)⟩)
      else
        .error .panic
    else
      .error .panic
  else
    .error .panic

/-- `TablePage::get_next_tuple_offset(tuple)`: `PAGE_SIZE - size` on an empty
page, else `slot[cnt-1].offset - size as u16`; debug-build under/overflow of
the subtraction is a panic.  There is no OutOfSpace check in the source. -/
def get_next_tuple_offset (p : PageFrame) (t : Tuple) : Except DbError Nat :=
  let cnt := tuple_count p
  if cnt = 0 then
    if t.size ≤ PAGE_SIZE then .ok ((PAGE_SIZE - t.size) % 65536) else .error .panic
  else
    if slotsEnd cnt ≤ PAGE_SIZE then
      let last := slotOffset p (cnt - 1)
      if t.size % 65536 ≤ last then .ok (last - t.size % 65536) else .error .panic
    else
      .error .panic

/-- `TablePage::insert_tuple(meta, tuple)`: computes the offset, increments
`tuple_cnt`, writes the new slot { offset, size as u16, metadata }, copies the
payload bytes, and returns `RecordId(page_id, tuple_cnt - 1)`.  Bounds of the
slot-directory slice and of the payload copy are panics when violated; the
page is returned as the updated state. -/
def insert_tuple (p : PageFrame) (meta : TupleMetadata) (t : Tuple) :
    Except DbError (RecordId × PageFrame) :=
  match get_next_tuple_offset p t with
  | .error e => .error e
  | .ok off =>
    let cnt := tuple_count p
    if cnt + 1 < 4294967296 then
      let d1 := write32 p.data 4 (cnt + 1)
      if slotsEnd (cnt + 1) ≤ PAGE_SIZE then
        let base := TABLE_PAGE_HEADER_SIZE + TUPLE_INFO_SIZE * cnt
        let d2 := write16 d1 base off
        let d3 := write16 d2 (base + 2) (t.size % 65536)
        let d4 := write8 d3 (base + 4) meta.is_deleted_u8
        let d5 := write8 d4 (base + 5) 0
        if off + t.size ≤ PAGE_SIZE then
          .ok (⟨p.page_id, cnt⟩, { p with data := writeBytes d5 off t.data t.size })
        else
          .error .panic
      else
        .error .panic
    else
      .error .panic

/-- `TablePage::update_tuple_metadata(rid, metadata)`: the source copies the
addressed `TupleInfo` out of the slot array into a local, calls
`set_deleted` on the local copy, and returns `Ok(())` without writing the
page; hence the page state is returned unchanged.  The only fallible steps
are the slot-array slice and the index (panics). -/
def update_tuple_metadata (p : PageFrame) (rid : RecordId) (_metadata : TupleMetadata) :
    Except DbError PageFrame :=
  let cnt := tuple_count p
  if slotsEnd cnt ≤ PAGE_SIZE then
    if rid.slot_id < cnt then
      .ok p
    else
      .error .panic
  else
    .error .panic

/-- An all-zero frame with the given page id, as handed out by the buffer
pool for a freshly created page. -/
def freshFrame (pid : Nat) : PageFrame := ⟨pid, fun _ => 0⟩

example : tuple_count (init_header (freshFrame 1) 2) = 0 := by decide
example : next_page_id (init_header (freshFrame 1) 2) = 2 := by decide

/-- A one-byte tuple with payload byte 7. -/
def tinyTuple : Tuple := ⟨1, fun _ => 7⟩

/-- A page holding a single live one-byte tuple in slot 0: the result of
`init_header(0)` followed by `insert_tuple(live, [7])` on page 1. -/
def samplePage : PageFrame :=
  match insert_tuple (init_header (freshFrame 1) 0) (TupleMetadata.mk_new false) tinyTuple with
  | .ok (_, p) => p
  | .error _ => freshFrame 1

example : insert_tuple (init_header (freshFrame 1) 0) (TupleMetadata.mk_new false) tinyTuple
    = .ok (⟨1, 0⟩, samplePage) := rfl

example : tuple_count samplePage = 1 := by decide
example : slotOffset samplePage 0 = 4095 := by decide

/-- Projection used to state concrete facts about a `get_tuple` result
without comparing the (function-valued) tuple payload. -/
def gotDeleted (r : Except DbError (TupleMetadata × Tuple)) : Option Bool :=
  match r with
  | .ok (md, _) => some md.is_deleted
  | .error _ => none

example : gotDeleted (get_tuple samplePage ⟨1, 0⟩) = some false := by decide

theorem byteAt_write8 (d : Nat → Nat) (o v i : Nat) :
    byteAt (write8 d o v) i = if i = o then v % 256 else byteAt d i := by
  unfold byteAt write8
  split <;> omega

theorem byteAt_write16 (d : Nat → Nat) (o v i : Nat) :
    byteAt (write16 d o v) i =
      if i = o then v % 256
      else if i = o + 1 then v / 256 % 256
      else byteAt d i := by
  unfold byteAt write16
  split <;> [omega; skip]
  split <;> omega

theorem byteAt_write32 (d : Nat → Nat) (o v i : Nat) :
    byteAt (write32 d o v) i =
      if i = o then v % 256
      else if i = o + 1 then v / 256 % 256
      else if i = o + 2 then v / 65536 % 256
      else if i = o + 3 then v / 16777216 % 256
      else byteAt d i := by
  unfold byteAt write32
  split <;> [omega; skip]
  split <;> [omega; skip]
  split <;> [omega; skip]
  split <;> omega

theorem byteAt_writeBytes (d src : Nat → Nat) (o n i : Nat) :
    byteAt (writeBytes d o src n) i =
      if o ≤ i ∧ i < o + n then byteAt src (i - o) else byteAt d i := by
  unfold byteAt writeBytes
  split <;> omega

/-- The data store produced by a successful `insert_tuple` on page `p`:
header increment, the three slot-field writes, then the payload copy. -/
def insertedData (p : PageFrame) (meta : TupleMetadata) (t : Tuple) (off : Nat) : Nat → Nat :=
  writeBytes
    (write8
      (write8
        (write16
          (write16 (write32 p.data 4 (tuple_count p + 1))
            (TABLE_PAGE_HEADER_SIZE + TUPLE_INFO_SIZE * tuple_count p) off)
          (TABLE_PAGE_HEADER_SIZE + TUPLE_INFO_SIZE * tuple_count p + 2) (t.size % 65536))
        (TABLE_PAGE_HEADER_SIZE + TUPLE_INFO_SIZE * tuple_count p + 4) meta.is_deleted_u8)
      (TABLE_PAGE_HEADER_SIZE + TUPLE_INFO_SIZE * tuple_count p + 5) 0)
    off t.data t.size

theorem insert_tuple_ok_unfold (p : PageFrame) (meta : TupleMetadata) (t : Tuple)
    (rid : RecordId) (q : PageFrame)
    (h : insert_tuple p meta t = .ok (rid, q)) :
    ∃ off, get_next_tuple_offset p t = .ok off ∧
      tuple_count p + 1 < 4294967296 ∧
      slotsEnd (tuple_count p + 1) ≤ PAGE_SIZE ∧
      off + t.size ≤ PAGE_SIZE ∧
      rid = ⟨p.page_id, tuple_count p⟩ ∧
      q = { p with data := insertedData p meta t off } := by
  unfold insert_tuple at h
  split at h
  · exact absurd h (by simp)
  next off hoff =>
    simp only at h
    split at h
    · split at h
      · split at h
        · refine ⟨off, hoff, by assumption, by assumption, by assumption, ?_⟩
          simp only [Except.ok.injEq, Prod.mk.injEq] at h
          exact ⟨h.1.symm, h.2.symm⟩
        · exact absurd h (by simp)
      · exact absurd h (by simp)
    · exact absurd h (by simp)

set_option maxHeartbeats 1600000 in
theorem byteAt_insertedData (p : PageFrame) (meta : TupleMetadata) (t : Tuple) (off i : Nat) :
    byteAt (insertedData p meta t off) i =
      if off ≤ i ∧ i < off + t.size then byteAt t.data (i - off)
      else if i = 16 + 6 * tuple_count p + 5 then 0
      else if i = 16 + 6 * tuple_count p + 4 then meta.is_deleted_u8 % 256
      else if i = 16 + 6 * tuple_count p + 2 then t.size % 65536 % 256
      else if i = 16 + 6 * tuple_count p + 3 then t.size % 65536 / 256 % 256
      else if i = 16 + 6 * tuple_count p then off % 256
      else if i = 16 + 6 * tuple_count p + 1 then off / 256 % 256
      else if i = 4 then (tuple_count p + 1) % 256
      else if i = 5 then (tuple_count p + 1) / 256 % 256
      else if i = 6 then (tuple_count p + 1) / 65536 % 256
      else if i = 7 then (tuple_count p + 1) / 16777216 % 256
      else byteAt p.data i := by
  unfold insertedData TABLE_PAGE_HEADER_SIZE TUPLE_INFO_SIZE
  rw [byteAt_writeBytes, byteAt_write8, byteAt_write8, byteAt_write16, byteAt_write16,
    byteAt_write32]


theorem byteAt_insertedData_untouched (p : PageFrame) (meta : TupleMetadata) (t : Tuple)
    (off i : Nat)
    (hpay : i < off ∨ off + t.size ≤ i)
    (hslot : i < 16 + 6 * tuple_count p ∨ 16 + 6 * tuple_count p + 6 ≤ i)
    (hhdr : i < 4 ∨ 8 ≤ i) :
    byteAt (insertedData p meta t off) i = byteAt p.data i := by
  rw [byteAt_insertedData]
  rw [if_neg (show ¬(off ≤ i ∧ i < off + t.size) by omega)]
  rw [if_neg (show ¬(i = 16 + 6 * tuple_count p + 5) by omega)]
  rw [if_neg (show ¬(i = 16 + 6 * tuple_count p + 4) by omega)]
  rw [if_neg (show ¬(i = 16 + 6 * tuple_count p + 2) by omega)]
  rw [if_neg (show ¬(i = 16 + 6 * tuple_count p + 3) by omega)]
  rw [if_neg (show ¬(i = 16 + 6 * tuple_count p) by omega)]
  rw [if_neg (show ¬(i = 16 + 6 * tuple_count p + 1) by omega)]
  rw [if_neg (show ¬(i = 4) by omega)]
  rw [if_neg (show ¬(i = 5) by omega)]
  rw [if_neg (show ¬(i = 6) by omega)]
  rw [if_neg (show ¬(i = 7) by omega)]


theorem byteAt_insertedData_header (p : PageFrame) (meta : TupleMetadata) (t : Tuple)
    (off : Nat)
    (hfit : slotsEnd (tuple_count p + 1) ≤ off) :
    byteAt (insertedData p meta t off) 4 = (tuple_count p + 1) % 256 ∧
    byteAt (insertedData p meta t off) 5 = (tuple_count p + 1) / 256 % 256 ∧
    byteAt (insertedData p meta t off) 6 = (tuple_count p + 1) / 65536 % 256 ∧
    byteAt (insertedData p meta t off) 7 = (tuple_count p + 1) / 16777216 % 256 := by
  unfold slotsEnd TABLE_PAGE_HEADER_SIZE TUPLE_INFO_SIZE at hfit
  refine ⟨?_, ?_, ?_, ?_⟩ <;>
  · rw [byteAt_insertedData]
    rw [if_neg (by omega)]
    rw [if_neg (show ¬ _ = 16 + 6 * tuple_count p + 5 by omega)]
    rw [if_neg (show ¬ _ = 16 + 6 * tuple_count p + 4 by omega)]
    rw [if_neg (show ¬ _ = 16 + 6 * tuple_count p + 2 by omega)]
    rw [if_neg (show ¬ _ = 16 + 6 * tuple_count p + 3 by omega)]
    rw [if_neg (show ¬ _ = 16 + 6 * tuple_count p by omega)]
    rw [if_neg (show ¬ _ = 16 + 6 * tuple_count p + 1 by omega)]
    simp

theorem byteAt_insertedData_newslot (p : PageFrame) (meta : TupleMetadata) (t : Tuple)
    (off : Nat)
    (hfit : slotsEnd (tuple_count p + 1) ≤ off) :
    byteAt (insertedData p meta t off) (16 + 6 * tuple_count p) = off % 256 ∧
    byteAt (insertedData p meta t off) (16 + 6 * tuple_count p + 1) = off / 256 % 256 ∧
    byteAt (insertedData p meta t off) (16 + 6 * tuple_count p + 2) = t.size % 65536 % 256 ∧
    byteAt (insertedData p meta t off) (16 + 6 * tuple_count p + 3) = t.size % 65536 / 256 % 256 ∧
    byteAt (insertedData p meta t off) (16 + 6 * tuple_count p + 4) = meta.is_deleted_u8 % 256 := by
  unfold slotsEnd TABLE_PAGE_HEADER_SIZE TUPLE_INFO_SIZE at hfit
  refine ⟨?_, ?_, ?_, ?_, ?_⟩ <;>
    rw [byteAt_insertedData] <;>
    rw [if_neg (by omega)] <;>
    rw [if_neg (show ¬ _ = 16 + 6 * tuple_count p + 5 by omega)] <;>
    simp

theorem byteAt_insertedData_oldslot (p : PageFrame) (meta : TupleMetadata) (t : Tuple)
    (off i j : Nat)
    (hfit : slotsEnd (tuple_count p + 1) ≤ off)
    (hi : i < tuple_count p) (hj : j < 6) :
    byteAt (insertedData p meta t off) (16 + 6 * i + j) = byteAt p.data (16 + 6 * i + j) := by
  unfold slotsEnd TABLE_PAGE_HEADER_SIZE TUPLE_INFO_SIZE at hfit
  exact byteAt_insertedData_untouched p meta t off _ (by omega) (by omega) (by omega)


theorem tuple_count_insert (p q : PageFrame) (meta : TupleMetadata) (t : Tuple) (off : Nat)
    (hq : q.data = insertedData p meta t off)
    (hfit : slotsEnd (tuple_count p + 1) ≤ off)
    (hlt : tuple_count p + 1 < 4294967296) :
    tuple_count q = tuple_count p + 1 := by
  obtain ⟨h4, h5, h6, h7⟩ := byteAt_insertedData_header p meta t off hfit
  show read32 q.data 4 = tuple_count p + 1
  rw [hq, read32]
  rw [show (4 : Nat) + 1 = 5 from rfl, show (4 : Nat) + 2 = 6 from rfl,
    show (4 : Nat) + 3 = 7 from rfl, h4, h5, h6, h7]
  omega

theorem slot_reads_insert_old (p q : PageFrame) (meta : TupleMetadata) (t : Tuple) (off i : Nat)
    (hq : q.data = insertedData p meta t off)
    (hfit : slotsEnd (tuple_count p + 1) ≤ off)
    (hi : i < tuple_count p) :
    slotOffset q i = slotOffset p i ∧ slotSize q i = slotSize p i ∧
      slotMetaByte q i = slotMetaByte p i := by
  unfold slotOffset slotSize slotMetaByte read16 TABLE_PAGE_HEADER_SIZE TUPLE_INFO_SIZE
  rw [hq]
  have h5 : slotsEnd (tuple_count p + 1) ≤ off := hfit
  unfold slotsEnd TABLE_PAGE_HEADER_SIZE TUPLE_INFO_SIZE at h5
  rw [byteAt_insertedData_untouched p meta t off (16 + 6 * i) (by omega) (by omega) (by omega),
    byteAt_insertedData_untouched p meta t off (16 + 6 * i + 1) (by omega) (by omega) (by omega),
    byteAt_insertedData_untouched p meta t off (16 + 6 * i + 2) (by omega) (by omega) (by omega),
    byteAt_insertedData_untouched p meta t off (16 + 6 * i + 2 + 1) (by omega) (by omega) (by omega),
    byteAt_insertedData_untouched p meta t off (16 + 6 * i + 4) (by omega) (by omega) (by omega)]
  exact ⟨rfl, rfl, rfl⟩

theorem slot_reads_insert_new (p q : PageFrame) (meta : TupleMetadata) (t : Tuple) (off : Nat)
    (hq : q.data = insertedData p meta t off)
    (hfit : slotsEnd (tuple_count p + 1) ≤ off)
    (hoffb : off < 65536) :
    slotOffset q (tuple_count p) = off ∧ slotSize q (tuple_count p) = t.size % 65536 ∧
      slotMetaByte q (tuple_count p) = meta.is_deleted_u8 % 256 := by
  obtain ⟨h0, h1, h2, h3, h4⟩ := byteAt_insertedData_newslot p meta t off hfit
  unfold slotOffset slotSize slotMetaByte read16 TABLE_PAGE_HEADER_SIZE TUPLE_INFO_SIZE
  rw [hq]
  rw [show 16 + 6 * tuple_count p + 2 + 1 = 16 + 6 * tuple_count p + 3 by omega]
  rw [h0, h1, h2, h3, h4]
  refine ⟨by omega, by omega, rfl⟩

theorem payload_insert (p q : PageFrame) (meta : TupleMetadata) (t : Tuple) (off i : Nat)
    (hq : q.data = insertedData p meta t off)
    (hi : i < t.size) :
    byteAt q.data (off + i) = byteAt t.data i := by
  rw [hq, byteAt_insertedData, if_pos ⟨by omega, by omega⟩,
    show off + i - off = i by omega]

/-- C7 (amended): when `insert_tuple` succeeds and the new payload offset
clears the projected directory end (the overflow check the source omits),
the returned rid is `(page_id, old tuple_count)`, the count grows by one,
and `get_tuple` reads back the same metadata flag and the same bytes. -/
theorem insert_then_get_checked (p : PageFrame) (m : TupleMetadata) (t : Tuple)
    (rid : RecordId) (q : PageFrame)
    (hok : insert_tuple p m t = .ok (rid, q))
    (hfit : ∀ off, get_next_tuple_offset p t = .ok off → slotsEnd (tuple_count p + 1) ≤ off)
    (hm : m.is_deleted_u8 < 256) :
    rid = ⟨p.page_id, tuple_count p⟩ ∧
    tuple_count q = tuple_count p + 1 ∧
    ∃ md tu, get_tuple q rid = .ok (md, tu) ∧
      md.is_deleted = m.is_deleted ∧ tu.size = t.size ∧
      ∀ i, i < t.size → tu.data i = byteAt t.data i := by
  obtain ⟨off, hoff, hlt, hdir, hcopy, hrid, hqd⟩ := insert_tuple_ok_unfold p m t rid q hok
  have hfit2 : slotsEnd (tuple_count p + 1) ≤ off := hfit off hoff
  have hqdata : q.data = insertedData p m t off := by rw [hqd]
  have hcnt : tuple_count q = tuple_count p + 1 :=
    tuple_count_insert p q m t off hqdata hfit2 hlt
  have hps : PAGE_SIZE = 4096 := rfl
  have hoffb : off < 65536 := by omega
  have hts : t.size ≤ 4096 := by omega
  obtain ⟨ho, hs, hmd⟩ := slot_reads_insert_new p q m t off hqdata hfit2 hoffb
  refine ⟨hrid, hcnt, ⟨slotMetaByte q (tuple_count p)⟩,
    ⟨slotSize q (tuple_count p), fun i => byteAt q.data (slotOffset q (tuple_count p) + i)⟩,
    ?_, ?_, ?_, ?_⟩
  · simp only [get_tuple, hrid, hcnt]
    rw [if_pos (by omega), if_pos (by omega), if_pos (by rw [ho, hs]; omega)]
  · show (slotMetaByte q (tuple_count p) ≠ 0 : Bool) = m.is_deleted
    rw [hmd, Nat.mod_eq_of_lt hm]
    rfl
  · show slotSize q (tuple_count p) = t.size
    rw [hs]
    omega
  · intro i hi
    show byteAt q.data (slotOffset q (tuple_count p) + i) = byteAt t.data i
    rw [ho]
    exact payload_insert p q m t off i hqdata hi

/-- Success projection for `Except` results whose payload carries functions
(and hence has no decidable equality). -/
def exceptOk {α : Type} (r : Except DbError α) : Bool :=
  match r with
  | .ok _ => true
  | .error _ => false

/-- A tuple of 4095 zero bytes: it does not fit on a fresh 4096-byte page
(offset 1 is below the projected directory end 22). -/
def bigTuple : Tuple := ⟨4095, fun _ => 0⟩

/-- Tuple count of the page produced by an insertion, when it succeeded. -/
def insertCountAfter (r : Except DbError (RecordId × PageFrame)) : Option Nat :=
  match r with
  | .ok (_, q) => some (tuple_count q)
  | .error _ => none

/-- Whether `get_tuple` succeeds at the rid an insertion returned. -/
def insertGetOk (r : Except DbError (RecordId × PageFrame)) : Option Bool :=
  match r with
  | .ok (rid, q) => some (exceptOk (get_tuple q rid))
  | .error _ => none

/-- C2: the source has no overflow check.  On a fresh page, a 4095-byte tuple
gets payload offset 1, strictly below the projected directory end
`HDR + (0 + 1) * SLOT = 22`, yet `insert_tuple` returns Ok (and corrupts the
page) instead of the OutOfSpace error the spec requires. -/
theorem insert_missing_overflow_check :
    get_next_tuple_offset (init_header (freshFrame 1) 0) bigTuple = .ok 1 ∧
    slotsEnd (tuple_count (init_header (freshFrame 1) 0) + 1) = 22 ∧
    exceptOk (insert_tuple (init_header (freshFrame 1) 0)
      (TupleMetadata.mk_new false) bigTuple) = true := by
  refine ⟨rfl, by decide, by decide⟩

/-- C7 counterexample: the claim as stated fails.  Inserting the 4095-byte
tuple on a fresh page succeeds, but its payload overwrites the header, so the
resulting tuple count is 0 (not old count + 1) and `get_tuple` at the
returned rid panics instead of returning `(m, t)`. -/
theorem insert_then_get_unchecked_fails :
    insertCountAfter (insert_tuple (init_header (freshFrame 1) 0)
      (TupleMetadata.mk_new false) bigTuple) = some 0 ∧
    insertGetOk (insert_tuple (init_header (freshFrame 1) 0)
      (TupleMetadata.mk_new false) bigTuple) = some false := by
  refine ⟨by decide, by decide⟩

/-- C5: `validate_record_id` correctly flags a rid with a foreign page id or
an out-of-range slot, but neither `get_tuple` nor `update_tuple_metadata`
calls it: a rid belonging to page 2 is accepted by both on page 1, and an
out-of-range slot id panics (index out of bounds) instead of returning
InvalidInput. -/
theorem record_id_validation_unused :
    validate_record_id samplePage ⟨2, 0⟩ = .error .invalidInput ∧
    exceptOk (get_tuple samplePage ⟨2, 0⟩) = true ∧
    update_tuple_metadata samplePage ⟨2, 0⟩ (TupleMetadata.mk_new true) = .ok samplePage ∧
    validate_record_id samplePage ⟨1, 5⟩ = .error .invalidInput ∧
    get_tuple samplePage ⟨1, 5⟩ = .error .panic := by
  refine ⟨rfl, by decide, rfl, rfl, rfl⟩

/-- Fresh initialised page used to witness the amended insert-then-get. -/
def w7base : PageFrame := init_header (freshFrame 1) 0

/-- A two-byte tuple used to witness the amended insert-then-get. -/
def w7tuple : Tuple := ⟨2, fun i => i + 1⟩

/-- The page after inserting `w7tuple` on `w7base`. -/
def w7page : PageFrame :=
  match insert_tuple w7base (TupleMetadata.mk_new false) w7tuple with
  | .ok (_, q) => q
  | .error _ => freshFrame 0

/-- Witness for the amended C7 theorem at a concrete insertion. -/
theorem insert_then_get_checked_witness :
    (⟨1, 0⟩ : RecordId) = ⟨w7base.page_id, tuple_count w7base⟩ ∧
    tuple_count w7page = tuple_count w7base + 1 ∧
    ∃ md tu, get_tuple w7page ⟨1, 0⟩ = .ok (md, tu) ∧
      md.is_deleted = (TupleMetadata.mk_new false).is_deleted ∧ tu.size = w7tuple.size ∧
      ∀ i, i < w7tuple.size → tu.data i = byteAt w7tuple.data i :=
  insert_then_get_checked w7base (TupleMetadata.mk_new false) w7tuple ⟨1, 0⟩ w7page rfl
    (by
      intro off h
      rw [show get_next_tuple_offset w7base w7tuple = .ok 4094 from rfl] at h
      injection h with h
      subst h
      decide)
    (by decide)

/-- The slot-directory invariant of the spec: first payload at the page end,
each next payload directly below the previous one, and the whole directory
below every payload, which itself lies within the page. -/
def DirInv (p : PageFrame) : Prop :=
  (0 < tuple_count p → slotOffset p 0 = PAGE_SIZE - slotSize p 0) ∧
  (∀ i, i + 1 < tuple_count p → slotOffset p (i + 1) = slotOffset p i - slotSize p (i + 1)) ∧
  (∀ i, i < tuple_count p →
    slotsEnd (tuple_count p) ≤ slotOffset p i ∧ slotOffset p i + slotSize p i ≤ PAGE_SIZE)

theorem dirInv_anti (p : PageFrame)
    (h2 : ∀ i, i + 1 < tuple_count p → slotOffset p (i + 1) = slotOffset p i - slotSize p (i + 1)) :
    ∀ d i, i + d < tuple_count p → slotOffset p (i + d) ≤ slotOffset p i := by
  intro d
  induction d with
  | zero => intro i _; simp
  | succ d ih =>
    intro i hd
    have h1 : i + d + 1 < tuple_count p := by omega
    have h3 := h2 (i + d) h1
    rw [show i + (d + 1) = i + d + 1 by omega, h3]
    calc slotOffset p (i + d) - slotSize p (i + d + 1)
        ≤ slotOffset p (i + d) := Nat.sub_le _ _
      _ ≤ slotOffset p i := ih i (by omega)

theorem dirInv_insert_step (p q : PageFrame) (m : TupleMetadata) (t : Tuple)
    (rid : RecordId)
    (hok : insert_tuple p m t = .ok (rid, q))
    (hfit : ∀ off, get_next_tuple_offset p t = .ok off → slotsEnd (tuple_count p + 1) ≤ off)
    (hinv : DirInv p) : DirInv q := by
  obtain ⟨off, hoff, hlt, hdir, hcopy, hrid, hqd⟩ := insert_tuple_ok_unfold p m t rid q hok
  have hfit2 : slotsEnd (tuple_count p + 1) ≤ off := hfit off hoff
  have hqdata : q.data = insertedData p m t off := by rw [hqd]
  have hps : PAGE_SIZE = 4096 := rfl
  have hts : t.size ≤ 4096 := by omega
  have htsz : t.size % 65536 = t.size := Nat.mod_eq_of_lt (by omega)
  have hcnt : tuple_count q = tuple_count p + 1 :=
    tuple_count_insert p q m t off hqdata hfit2 hlt
  have hoffb : off < 65536 := by omega
  obtain ⟨hno, hns, _⟩ := slot_reads_insert_new p q m t off hqdata hfit2 hoffb
  rw [htsz] at hns
  have hold : ∀ i, i < tuple_count p →
      slotOffset q i = slotOffset p i ∧ slotSize q i = slotSize p i := by
    intro i hi
    obtain ⟨a, b, _⟩ := slot_reads_insert_old p q m t off i hqdata hfit2 hi
    exact ⟨a, b⟩
  have hoffval : (tuple_count p = 0 ∧ off = PAGE_SIZE - t.size) ∨
      (0 < tuple_count p ∧ t.size ≤ slotOffset p (tuple_count p - 1) ∧
        off = slotOffset p (tuple_count p - 1) - t.size) := by
    unfold get_next_tuple_offset at hoff
    by_cases hz : tuple_count p = 0
    · left
      rw [if_pos hz] at hoff
      split at hoff
      · injection hoff with h
        refine ⟨hz, ?_⟩
        rw [← h, Nat.mod_eq_of_lt (by omega)]
      · exact absurd hoff (by simp)
    · right
      rw [if_neg hz] at hoff
      simp only at hoff
      split at hoff
      · split at hoff
        next hle =>
          injection hoff with h
          rw [htsz] at hle h
          exact ⟨by omega, hle, h.symm⟩
        next => exact absurd hoff (by simp)
      · exact absurd hoff (by simp)
  refine ⟨?_, ?_, ?_⟩
  · intro _
    rcases hoffval with ⟨hz, hv⟩ | ⟨hpos, _, _⟩
    · rw [hz] at hno hns
      rw [hno, hns]
      exact hv
    · have h0 := (hold 0 hpos).1
      have h0s := (hold 0 hpos).2
      rw [h0, h0s]
      exact hinv.1 hpos
  · intro i hi
    rw [hcnt] at hi
    by_cases hlast : i + 1 = tuple_count p
    · have hip : i < tuple_count p := by omega
      have hio := (hold i hip).1
      rcases hoffval with ⟨hz, _⟩ | ⟨hpos, hsz, hv⟩
      · omega
      · rw [hlast, hno, hns, hio]
        rw [show tuple_count p - 1 = i by omega] at hv
        omega
    · have hi1 : i + 1 < tuple_count p := by omega
      rw [(hold (i + 1) hi1).1, (hold (i + 1) hi1).2, (hold i (by omega)).1]
      exact hinv.2.1 i hi1
  · intro i hi
    rw [hcnt] at hi
    rw [hcnt]
    by_cases hlast : i = tuple_count p
    · subst hlast
      rw [hno, hns]
      exact ⟨hfit2, by omega⟩
    · have hip : i < tuple_count p := by omega
      rw [(hold i hip).1, (hold i hip).2]
      have hbase := hinv.2.2 i hip
      have hmin : slotOffset p (tuple_count p - 1) ≤ slotOffset p i := by
        have ha := dirInv_anti p hinv.2.1 (tuple_count p - 1 - i) i (by omega)
        rw [show i + (tuple_count p - 1 - i) = tuple_count p - 1 by omega] at ha
        exact ha
      rcases hoffval with ⟨hz, _⟩ | ⟨hpos, hsz, hv⟩
      · omega
      · exact ⟨by omega, hbase.2⟩

/-- A sequence of insertions, stopping at the first failure. -/
def insertSeq (p : PageFrame) : List (TupleMetadata × Tuple) → Except DbError PageFrame
  | [] => .ok p
  | mt :: rest =>
    match insert_tuple p mt.1 mt.2 with
    | .ok (_, q) => insertSeq q rest
    | .error e => .error e

/-- Every insertion of the sequence succeeds and its computed payload offset
clears the projected directory end (the overflow check of the spec). -/
def FitsSeq (p : PageFrame) : List (TupleMetadata × Tuple) → Prop
  | [] => True
  | mt :: rest => ∃ off rid q, get_next_tuple_offset p mt.2 = .ok off ∧
      slotsEnd (tuple_count p + 1) ≤ off ∧
      insert_tuple p mt.1 mt.2 = .ok (rid, q) ∧ FitsSeq q rest

theorem tuple_count_init (p : PageFrame) (next : Nat) :
    tuple_count (init_header p next) = 0 := by
  show read32 (init_header p next).data 4 = 0
  unfold init_header read32
  simp [byteAt_write32]

theorem dirInv_init (p : PageFrame) (next : Nat) : DirInv (init_header p next) := by
  refine ⟨?_, ?_, ?_⟩ <;> rw [tuple_count_init] <;> omega

theorem dirInv_insertSeq (l : List (TupleMetadata × Tuple)) :
    ∀ p q, DirInv p → FitsSeq p l → insertSeq p l = .ok q → DirInv q := by
  induction l with
  | nil =>
    intro p q hinv _ h
    unfold insertSeq at h
    injection h with h
    rw [← h]
    exact hinv
  | cons mt rest ih =>
    intro p q hinv hfits h
    obtain ⟨off, rid, r, hoff, hfit, hok, hrest⟩ := hfits
    unfold insertSeq at h
    rw [hok] at h
    simp only at h
    refine ih r q ?_ hrest h
    refine dirInv_insert_step p r mt.1 mt.2 rid hok ?_ hinv
    intro o ho
    rw [hoff] at ho
    injection ho with ho
    rw [← ho]
    exact hfit

/-- C8 (amended): starting from a freshly initialised page, after any
sequence of insertions that all succeed and all satisfy the overflow check
(`new_offset` at or above the projected directory end — the check the source
omits), the slot directory satisfies the spec invariant: first offset
`PAGE_SIZE - size`, each later offset the previous one minus the later size,
directory end at or below every offset, and every payload inside the page. -/
theorem slot_directory_invariant (pid next : Nat) (l : List (TupleMetadata × Tuple))
    (q : PageFrame)
    (hfits : FitsSeq (init_header (freshFrame pid) next) l)
    (h : insertSeq (init_header (freshFrame pid) next) l = .ok q) : DirInv q :=
  dirInv_insertSeq l (init_header (freshFrame pid) next) q
    (dirInv_init (freshFrame pid) next) hfits h

/-- The page after inserting a 4080-byte all-zero tuple on a fresh page: the
payload lands at offset 16 and overwrites its own slot entry. -/
def c8page : PageFrame :=
  match insertSeq (init_header (freshFrame 1) 0)
      [(TupleMetadata.mk_new false, ⟨4080, fun _ => 0⟩)] with
  | .ok q => q
  | .error _ => freshFrame 0

/-- C8 counterexample: the claim as stated fails.  The single 4080-byte
insertion succeeds (the sequence does not fail), but on the resulting page
slot 0 reads offset 0, so the directory end 22 exceeds the minimum slot
offset and the first-slot equation `offset = PAGE_SIZE - size` is violated. -/
theorem slot_directory_unchecked_fails :
    insertSeq (init_header (freshFrame 1) 0)
      [(TupleMetadata.mk_new false, ⟨4080, fun _ => 0⟩)] = .ok c8page ∧
    ¬ DirInv c8page := by
  refine ⟨rfl, ?_⟩
  intro h
  have h1 : tuple_count c8page = 1 := by decide
  have h2 : slotOffset c8page 0 = 0 := by decide
  have h3 := (h.2.2 0 (by rw [h1]; omega)).1
  rw [h1, h2] at h3
  exact absurd h3 (by decide)

/-- The page after one well-fitting two-byte insertion, used as witness. -/
def w8page : PageFrame :=
  match insertSeq (init_header (freshFrame 1) 0)
      [(TupleMetadata.mk_new false, ⟨2, fun i => i + 1⟩)] with
  | .ok q => q
  | .error _ => freshFrame 0

/-- Witness for the amended C8 theorem at a concrete insertion sequence. -/
theorem slot_directory_invariant_witness : DirInv w8page :=
  slot_directory_invariant 1 0 [(TupleMetadata.mk_new false, ⟨2, fun i => i + 1⟩)] w8page
    ⟨4094, ⟨1, 0⟩, w8page, rfl, by decide, rfl, trivial⟩ rfl

/-- Modelled from the spec: the sentinel page id marking end-of-chain
(crate::page::INVALID_PAGE_ID is not under src/). -/
def INVALID_PAGE_ID : Nat := 0

/-- Modelled from the spec: `BufferPoolManager::fetch_page_handle` pins and
returns the frame holding the requested page, or fails (an Io error) when the
page cannot be produced; the pool is abstracted as a partial map from page
ids to frames, with the sentinel id mapped to nothing. -/
def fetch_page_handle (bpm : Nat → Option PageFrame) (pid : Nat) : Except DbError PageFrame :=
  match bpm pid with
  | some f => .ok f
  | none => .error .ioError

/-- `TableTupleIterator`: buffer pool, current page id and current slot.
The heap is consulted only at construction (for `first_page_id`). -/
structure TableTupleIterator where
  bpm : Nat → Option PageFrame
  current_page_id : Nat
  current_slot : Nat

/-- `TableTupleIterator::new(bpm, table_heap)`. -/
def TableTupleIterator.mk_new (bpm : Nat → Option PageFrame) (first_page_id : Nat) :
    TableTupleIterator :=
  ⟨bpm, first_page_id, 0⟩

/-- The inner while loop of `next`: starting from `slot`, advance past
deleted tuples; emit the first live one (slot already incremented), or report
exhaustion together with the final slot value.  `rem` is structural gas; the
Rust loop runs at most `cnt - slot` times, so `rem = cnt` is exact. -/
def scanSlots (pg : PageFrame) (pid cnt : Nat) :
    Nat → Nat → Option (Except DbError (Nat × Tuple)) × Nat
  | slot, 0 => (none, slot)
  | slot, rem + 1 =>
    if slot < cnt then
      match get_tuple pg ⟨pid, slot⟩ with
      | .ok (md, tu) =>
        if md.is_deleted then scanSlots pg pid cnt (slot + 1) rem
        else (some (.ok (RecordId.pack ⟨pid, slot⟩, tu)), slot + 1)
      | .error e => (some (.error e), slot + 1)
    else
      (none, slot)

/-- `TableTupleIterator::next`.  The source loops over pages with no check of
`current_page_id` before fetching; `fuel` bounds the number of page hops of
one call (the Rust loop is unbounded; every claim below is settled within
one hop, where the result does not depend on `fuel`). -/
def iterNext : Nat → TableTupleIterator → Option (Except DbError (Nat × Tuple)) × TableTupleIterator
  | 0, it => (none, it)
  | fuel + 1, it =>
    match fetch_page_handle it.bpm it.current_page_id with
    | .error e => (some (.error e), it)
    | .ok pg =>
      let cnt := tuple_count pg
      if slotsEnd cnt ≤ PAGE_SIZE then
        match scanSlots pg it.current_page_id cnt it.current_slot cnt with
        | (some item, s) => (some item, { it with current_slot := s })
        | (none, s) =>
          let nextPid := next_page_id pg
          if nextPid = INVALID_PAGE_ID then
            (none, { it with current_page_id := nextPid, current_slot := s })
          else
            iterNext fuel { it with current_page_id := nextPid, current_slot := 0 }
      else
        (some (.error .panic), it)

/-- The rid carried by an emitted item, if the call emitted a live tuple. -/
def yieldedRid (r : Option (Except DbError (Nat × Tuple))) : Option Nat :=
  match r with
  | some (.ok (rid, _)) => some rid
  | _ => none

/-- Whether a `next` call returned an error item. -/
def yieldedErr (r : Option (Except DbError (Nat × Tuple))) : Option DbError :=
  match r with
  | some (.error e) => some e
  | _ => none

/-- C1: evaluation at a page with one live tuple.  `update_tuple_metadata`
with `is_deleted = true` returns Ok but leaves the page bytes unchanged (the
source mutates a local copy of the slot), so `get_tuple` still reports the
tuple live, `deleted_tuple_cnt` stays 0, and a heap scan over the one-page
chain still yields the rid. -/
theorem update_tuple_metadata_no_write :
    update_tuple_metadata samplePage ⟨1, 0⟩ (TupleMetadata.mk_new true) = .ok samplePage ∧
    gotDeleted (get_tuple samplePage ⟨1, 0⟩) = some false ∧
    deleted_tuple_cnt samplePage = 0 ∧
    yieldedRid (iterNext 1 (TableTupleIterator.mk_new
      (fun pid => if pid = 1 then some samplePage else none) 1)).1 =
      some (RecordId.pack ⟨1, 0⟩) := by
  refine ⟨rfl, by decide, by decide, by decide⟩

/-- C4 (amended): a buffer-pool fetch failure makes the `next` call return a
single Err item and leaves the iterator state unchanged, so the following
call retries the same page; the error is resumable, the iterator is not
poisoned. -/
theorem iter_fetch_error_retryable (fuel : Nat) (it : TableTupleIterator)
    (h : it.bpm it.current_page_id = none) :
    iterNext (fuel + 1) it = (some (.error .ioError), it) := by
  unfold iterNext fetch_page_handle
  rw [h]

/-- An iterator over a buffer pool in which every fetch fails. -/
def c4iter : TableTupleIterator := TableTupleIterator.mk_new (fun _ => none) 1

/-- C4 counterexample: the claim as stated fails.  With a persistently
failing fetch, the first `next` returns an Err item and the second `next`
returns an Err item again — not end-of-iteration. -/
theorem iter_error_not_poisoned :
    yieldedErr (iterNext 1 c4iter).1 = some .ioError ∧
    yieldedErr (iterNext 1 (iterNext 1 c4iter).2).1 = some .ioError ∧
    (iterNext 1 (iterNext 1 c4iter).2).1 ≠ none := by
  refine ⟨by decide, by decide, ?_⟩
  rw [show (iterNext 1 (iterNext 1 c4iter).2).1 = some (.error .ioError) from rfl]
  simp

/-- Witness for the amended C4 theorem at a concrete iterator. -/
theorem iter_fetch_error_retryable_witness :
    iterNext 1 c4iter = (some (.error .ioError), c4iter) :=
  iter_fetch_error_retryable 0 c4iter rfl

/-- An iterator over an empty heap: `first_page_id = INVALID_PAGE_ID`. -/
def c9iter : TableTupleIterator := TableTupleIterator.mk_new (fun _ => none) INVALID_PAGE_ID

/-- A one-page heap: page 1 is initialised empty with
`next_page_id = INVALID_PAGE_ID`; no other page exists. -/
def c9bpm : Nat → Option PageFrame :=
  fun pid => if pid = 1 then some (init_header (freshFrame 1) INVALID_PAGE_ID) else none

/-- C9: the source `next` has no sentinel check before fetching.  At
`current_page_id = INVALID_PAGE_ID` it fetches the sentinel id from the
buffer pool and returns an Err item instead of end-of-iteration (first
conjunct).  The second half of the claim does hold: once a page whose
`next_page_id` is the sentinel is exhausted, the same call returns
end-of-iteration without fetching any further page (no other page exists in
`c9bpm`, so any further fetch would surface as an Err item). -/
theorem iter_no_sentinel_check :
    iterNext 1 c9iter = (some (.error .ioError), c9iter) ∧
    (iterNext 5 (TableTupleIterator.mk_new c9bpm 1)).1 = none ∧
    (iterNext 5 (TableTupleIterator.mk_new c9bpm 1)).2.current_page_id = INVALID_PAGE_ID := by
  refine ⟨rfl, rfl, by decide⟩

/-- u64::MAX, the sentinel the source uses for an infinite backward
K-distance. -/
def UMAX : Nat := 18446744073709551615

/-- A node of the LRU-K replacer: frame id, evictability flag, the last up
to K access timestamps (head = oldest), and K. -/
structure LrukNode where
  frame_id : Nat
  is_evictable : Bool
  history : List Nat
  k : Nat
deriving DecidableEq, Repr

/-- `LrukNode::new(frame_id, k)`: not evictable, empty history. -/
def LrukNode.mk_new (fid k : Nat) : LrukNode := ⟨fid, false, [], k⟩

/-- `LrukNode::has_inf_backward_k_dist`: fewer than K recorded accesses. -/
def LrukNode.hasInfBackwardKDist (n : LrukNode) : Bool := n.history.length < n.k

/-- `LrukNode::get_earliest_timestamp`: front of the history (the source
unwraps; reachable nodes always have non-empty history for K at least 1). -/
def LrukNode.getEarliestTimestamp (n : LrukNode) : Nat := n.history.headD 0

/-- `LrukNode::get_backwards_k_distance(current_timestamp)`: u64::MAX when
fewer than K accesses, else now minus the earliest retained timestamp. -/
def LrukNode.getBackwardsKDistance (n : LrukNode) (now : Nat) : Nat :=
  if n.hasInfBackwardKDist then UMAX else now - n.getEarliestTimestamp

/-- `LrukNode::insert_history_timestamp`: push the timestamp at the back and
drop the front when more than K are retained. -/
def LrukNode.insertHistoryTimestamp (n : LrukNode) (ts : Nat) : LrukNode :=
  let h := n.history ++ [ts]
  { n with history := if n.k < h.length then h.tail else h }

/-- The replacer state: the node store (modelled as an association list in
insertion order; the source uses a HashMap, whose iteration order is
immaterial because the eviction comparator has a unique maximum on
well-formed states), the cached evictable count, the clock, and K. -/
structure LrukReplacer where
  node_store : List (Nat × LrukNode)
  evictable_size : Nat
  current_timestamp : Nat
  k : Nat
deriving DecidableEq, Repr

/-- `LrukReplacer::new(k)`. -/
def LrukReplacer.mk_new (k : Nat) : LrukReplacer := ⟨[], 0, 0, k⟩

/-- HashMap `get`: first binding of the frame id. -/
def lookupNode : List (Nat × LrukNode) → Nat → Option LrukNode
  | [], _ => none
  | e :: rest, fid => if e.1 = fid then some e.2 else lookupNode rest fid

/-- HashMap `get_mut` + assignment: replace the binding of the frame id. -/
def setNode : List (Nat × LrukNode) → Nat → LrukNode → List (Nat × LrukNode)
  | [], _, _ => []
  | e :: rest, fid, n => if e.1 = fid then (fid, n) :: rest else e :: setNode rest fid n

/-- HashMap `remove`: drop the binding of the frame id. -/
def eraseNode : List (Nat × LrukNode) → Nat → List (Nat × LrukNode)
  | [], _ => []
  | e :: rest, fid => if e.1 = fid then rest else e :: eraseNode rest fid

/-- Number of stored nodes with `is_evictable = true`. -/
def countEvictable (l : List (Nat × LrukNode)) : Nat :=
  (l.filter (fun e => e.2.is_evictable)).length

/-- `LrukReplacer::record_access(frame_id)`: when the frame is unknown a
fresh node is first inserted (at the end of the store), then the node now
surely present is updated with the current timestamp by
`insert_history_timestamp`, and the clock is post-incremented; the two
source steps (conditional insert, then get_mut and update) are written as
one case split on the initial lookup. -/
def record_access (s : LrukReplacer) (fid : Nat) : LrukReplacer :=
  match lookupNode s.node_store fid with
  | some n =>
    { s with
      node_store := setNode s.node_store fid (n.insertHistoryTimestamp s.current_timestamp),
      current_timestamp := s.current_timestamp + 1 }
  | none =>
    { s with
      node_store := setNode (s.node_store ++ [(fid, LrukNode.mk_new fid s.k)]) fid
        ((LrukNode.mk_new fid s.k).insertHistoryTimestamp s.current_timestamp),
      current_timestamp := s.current_timestamp + 1 }

/-- `LrukReplacer::pin(frame_id)`: no-op when unknown or already pinned,
else clear the flag and decrement the count. -/
def LrukReplacer.pin (s : LrukReplacer) (fid : Nat) : LrukReplacer :=
  match lookupNode s.node_store fid with
  | none => s
  | some n =>
    if n.is_evictable then
      { s with node_store := setNode s.node_store fid { n with is_evictable := false },
               evictable_size := s.evictable_size - 1 }
    else
      s

/-- `LrukReplacer::unpin(frame_id)`: no-op when unknown or already
evictable, else set the flag and increment the count. -/
def LrukReplacer.unpin (s : LrukReplacer) (fid : Nat) : LrukReplacer :=
  match lookupNode s.node_store fid with
  | none => s
  | some n =>
    if n.is_evictable then
      s
    else
      { s with node_store := setNode s.node_store fid { n with is_evictable := true },
               evictable_size := s.evictable_size + 1 }

/-- `LrukReplacer::remove(frame_id)`: drop the node and decrement the count
only when it is known and evictable; silent no-op otherwise. -/
def LrukReplacer.remove (s : LrukReplacer) (fid : Nat) : LrukReplacer :=
  match lookupNode s.node_store fid with
  | none => s
  | some n =>
    if n.is_evictable then
      { s with node_store := eraseNode s.node_store fid,
               evictable_size := s.evictable_size - 1 }
    else
      s

/-- The scanning loop of `evict`: fold the candidate state
(max_frame_id, max_k_dist, earliest, modded) over the nodes. -/
def evictLoop (now : Nat) : List (Nat × LrukNode) → Nat × Nat × Nat × Bool → Nat × Nat × Nat × Bool
  | [], acc => acc
  | e :: rest, (mfid, mkd, mearl, md) =>
    if e.2.is_evictable ∧ mkd < e.2.getBackwardsKDistance now then
      evictLoop now rest
        (e.1, e.2.getBackwardsKDistance now, e.2.getEarliestTimestamp, true)
    else if e.2.is_evictable ∧ e.2.getBackwardsKDistance now = mkd ∧
        e.2.getEarliestTimestamp < mearl then
      evictLoop now rest
        (e.1, e.2.getBackwardsKDistance now, e.2.getEarliestTimestamp, true)
    else
      evictLoop now rest (mfid, mkd, mearl, md)

/-- `LrukReplacer::evict()`: scan all nodes starting from
(0, 0, u64::MAX, false); on success remove the winner and decrement the
count, else return None. -/
def LrukReplacer.evict (s : LrukReplacer) : Option Nat × LrukReplacer :=
  match evictLoop s.current_timestamp s.node_store (0, 0, UMAX, false) with
  | (mfid, _, _, true) =>
    (some mfid, { s with node_store := eraseNode s.node_store mfid,
                         evictable_size := s.evictable_size - 1 })
  | (_, _, _, false) => (none, s)

/-- `LrukReplacer::evictable_count()`. -/
def LrukReplacer.evictable_count (s : LrukReplacer) : Nat := s.evictable_size

/-- One replacer operation, for stating properties of operation sequences. -/
inductive ROp where
  | access (fid : Nat) : ROp
  | pin (fid : Nat) : ROp
  | unpin (fid : Nat) : ROp
  | remove (fid : Nat) : ROp
  | evict : ROp
deriving DecidableEq, Repr

/-- Apply one operation (the frame returned by evict is discarded). -/
def applyROp (s : LrukReplacer) : ROp → LrukReplacer
  | .access fid => record_access s fid
  | .pin fid => s.pin fid
  | .unpin fid => s.unpin fid
  | .remove fid => s.remove fid
  | .evict => (s.evict).2

/-- Run a sequence of operations from a fresh replacer with parameter K. -/
def runOps (k : Nat) (ops : List ROp) : LrukReplacer :=
  ops.foldl applyROp (LrukReplacer.mk_new k)

/-- A replacer state reachable from some fresh replacer by some finite
operation sequence. -/
def ReachableR (s : LrukReplacer) : Prop := ∃ k ops, runOps k ops = s

example : (runOps 2 [ROp.access 1, ROp.access 2, ROp.unpin 1, ROp.unpin 2,
    ROp.access 1]).evictable_count = 2 := by decide
example : ((runOps 2 [ROp.access 1, ROp.access 2, ROp.unpin 1, ROp.unpin 2,
    ROp.access 1]).evict).1 = some 2 := by decide

theorem lookupNode_none_not_mem (l : List (Nat × LrukNode)) (fid : Nat)
    (h : lookupNode l fid = none) : fid ∉ l.map Prod.fst := by
  induction l with
  | nil => simp
  | cons e rest ih =>
    unfold lookupNode at h
    split at h
    · exact absurd h (by simp)
    next hne =>
      simp only [List.map_cons, List.mem_cons]
      rintro (rfl | hmem)
      · exact hne rfl
      · exact ih h hmem

theorem lookupNode_mem (l : List (Nat × LrukNode)) (fid : Nat) (n : LrukNode)
    (h : lookupNode l fid = some n) : (fid, n) ∈ l := by
  induction l with
  | nil => simp [lookupNode] at h
  | cons e rest ih =>
    unfold lookupNode at h
    split at h
    next he =>
      injection h with h
      cases e with
      | mk a b =>
        simp only at he h
        rw [List.mem_cons]
        left
        rw [he, h]
    next => exact List.mem_cons_of_mem _ (ih h)

theorem lookupNode_isSome_of_mem (l : List (Nat × LrukNode)) (e : Nat × LrukNode)
    (h : e ∈ l) : lookupNode l e.1 ≠ none := by
  induction l with
  | nil => simp at h
  | cons a rest ih =>
    unfold lookupNode
    rcases List.mem_cons.mp h with rfl | hmem
    · simp
    · split
      · simp
      · exact ih hmem

theorem setNode_keys (l : List (Nat × LrukNode)) (fid : Nat) (n : LrukNode) :
    (setNode l fid n).map Prod.fst = l.map Prod.fst := by
  induction l with
  | nil => rfl
  | cons e rest ih =>
    unfold setNode
    split
    next he => simp [← he]
    next => simp [ih]

theorem lookupNode_setNode_self (l : List (Nat × LrukNode)) (fid : Nat) (n m : LrukNode)
    (h : lookupNode l fid = some n) :
    lookupNode (setNode l fid m) fid = some m := by
  induction l with
  | nil => simp [lookupNode] at h
  | cons e rest ih =>
    unfold lookupNode at h
    unfold setNode
    split at h
    next he => rw [if_pos he]; simp [lookupNode]
    next he => rw [if_neg he]; unfold lookupNode; rw [if_neg he]; exact ih h

theorem lookupNode_setNode_other (l : List (Nat × LrukNode)) (fid g : Nat) (m : LrukNode)
    (h : g ≠ fid) :
    lookupNode (setNode l fid m) g = lookupNode l g := by
  induction l with
  | nil => rfl
  | cons e rest ih =>
    unfold setNode
    split
    next he =>
      unfold lookupNode
      rw [if_neg (by omega), if_neg (by omega)]
    next he =>
      unfold lookupNode
      split
      · rfl
      · exact ih

theorem lookupNode_append_left (l l2 : List (Nat × LrukNode)) (fid : Nat) (n : LrukNode)
    (h : lookupNode l fid = some n) :
    lookupNode (l ++ l2) fid = some n := by
  induction l with
  | nil => simp [lookupNode] at h
  | cons e rest ih =>
    unfold lookupNode at h
    rw [List.cons_append]
    unfold lookupNode
    split at h
    next he => rw [if_pos he]; exact h
    next he => rw [if_neg he]; exact ih h

theorem lookupNode_append_right (l l2 : List (Nat × LrukNode)) (fid : Nat)
    (h : lookupNode l fid = none) :
    lookupNode (l ++ l2) fid = lookupNode l2 fid := by
  induction l with
  | nil => rfl
  | cons e rest ih =>
    unfold lookupNode at h
    rw [List.cons_append]
    conv_lhs => unfold lookupNode
    split at h
    · exact absurd h (by simp)
    next he => rw [if_neg he]; exact ih h

theorem eraseNode_keys_sublist (l : List (Nat × LrukNode)) (fid : Nat) :
    List.Sublist (eraseNode l fid) l := by
  induction l with
  | nil => simp [eraseNode]
  | cons e rest ih =>
    unfold eraseNode
    split
    · exact List.sublist_cons_self e rest
    · exact List.Sublist.cons₂ e ih

theorem countEvictable_setNode (l : List (Nat × LrukNode)) (fid : Nat) (n m : LrukNode)
    (hnd : (l.map Prod.fst).Nodup)
    (h : lookupNode l fid = some n) :
    countEvictable (setNode l fid m) + (if n.is_evictable then 1 else 0) =
      countEvictable l + (if m.is_evictable then 1 else 0) := by
  induction l with
  | nil => simp [lookupNode] at h
  | cons e rest ih =>
    unfold lookupNode at h
    unfold setNode
    simp only [List.map_cons, List.nodup_cons] at hnd
    split at h
    next he =>
      injection h with h
      rw [if_pos he]
      unfold countEvictable
      simp only [List.filter_cons]
      rw [← h]
      by_cases hev : e.2.is_evictable <;> by_cases hmv : m.is_evictable <;>
        simp [hev, hmv]
    next he =>
      rw [if_neg he]
      unfold countEvictable at ih ⊢
      simp only [List.filter_cons]
      have hih := ih hnd.2 h
      by_cases hev : e.2.is_evictable <;> simp only [hev] <;> simp <;> omega

theorem countEvictable_eraseNode (l : List (Nat × LrukNode)) (fid : Nat) (n : LrukNode)
    (hnd : (l.map Prod.fst).Nodup)
    (h : lookupNode l fid = some n) :
    countEvictable (eraseNode l fid) + (if n.is_evictable then 1 else 0) = countEvictable l := by
  induction l with
  | nil => simp [lookupNode] at h
  | cons e rest ih =>
    unfold lookupNode at h
    unfold eraseNode
    simp only [List.map_cons, List.nodup_cons] at hnd
    split at h
    next he =>
      injection h with h
      rw [if_pos he]
      unfold countEvictable
      simp only [List.filter_cons]
      rw [← h]
      by_cases hev : e.2.is_evictable <;> simp [hev]
    next he =>
      rw [if_neg he]
      unfold countEvictable at ih ⊢
      simp only [List.filter_cons]
      have hih := ih hnd.2 h
      by_cases hev : e.2.is_evictable <;> simp only [hev] <;> simp <;> omega

theorem countEvictable_append (l l2 : List (Nat × LrukNode)) :
    countEvictable (l ++ l2) = countEvictable l + countEvictable l2 := by
  unfold countEvictable
  simp [List.filter_append]

theorem lookupNode_of_mem_nodup (l : List (Nat × LrukNode)) (f : Nat) (nd : LrukNode)
    (hnd : (l.map Prod.fst).Nodup) (h : (f, nd) ∈ l) : lookupNode l f = some nd := by
  induction l with
  | nil => simp at h
  | cons e rest ih =>
    simp only [List.map_cons, List.nodup_cons] at hnd
    unfold lookupNode
    rcases List.mem_cons.mp h with rfl | hmem
    · simp
    · split
      next he =>
        exfalso
        exact hnd.1 (he ▸ (List.mem_map.mpr ⟨(f, nd), hmem, rfl⟩))
      next => exact ih hnd.2 hmem

theorem count_pos_of_evictable (l : List (Nat × LrukNode)) (f : Nat) (nd : LrukNode)
    (hnd : (l.map Prod.fst).Nodup) (h : lookupNode l f = some nd)
    (hev : nd.is_evictable = true) : 1 ≤ countEvictable l := by
  have h2 := countEvictable_eraseNode l f nd hnd h
  rw [hev] at h2
  simp only [if_pos] at h2
  omega

theorem evictLoop_result (now : Nat) (l : List (Nat × LrukNode)) :
    ∀ acc, evictLoop now l acc = acc ∨
      ((evictLoop now l acc).2.2.2 = true ∧
        ∃ nd, ((evictLoop now l acc).1, nd) ∈ l ∧ nd.is_evictable = true) := by
  induction l with
  | nil => intro acc; left; rfl
  | cons e rest ih =>
    rintro ⟨mfid, mkd, mearl, md⟩
    show (evictLoop now (e :: rest) (mfid, mkd, mearl, md)) = _ ∨ _
    unfold evictLoop
    split
    next hc =>
      rcases ih (e.1, e.2.getBackwardsKDistance now, e.2.getEarliestTimestamp, true) with
        heq | ⟨hmd, nd, hmem, hev⟩
      · right
        rw [heq]
        exact ⟨rfl, e.2, by cases e; simp, hc.1⟩
      · exact Or.inr ⟨hmd, nd, List.mem_cons_of_mem _ hmem, hev⟩
    next =>
      split
      next hc =>
        rcases ih (e.1, e.2.getBackwardsKDistance now, e.2.getEarliestTimestamp, true) with
          heq | ⟨hmd, nd, hmem, hev⟩
        · right
          rw [heq]
          exact ⟨rfl, e.2, by cases e; simp, hc.1⟩
        · exact Or.inr ⟨hmd, nd, List.mem_cons_of_mem _ hmem, hev⟩
      next =>
        rcases ih (mfid, mkd, mearl, md) with heq | ⟨hmd, nd, hmem, hev⟩
        · left; exact heq
        · exact Or.inr ⟨hmd, nd, List.mem_cons_of_mem _ hmem, hev⟩

/-- The bookkeeping invariant of the replacer: no duplicate frame ids in the
store, and the cached `evictable_size` equals the number of stored nodes with
the evictable flag set. -/
def CInv (s : LrukReplacer) : Prop :=
  (s.node_store.map Prod.fst).Nodup ∧ s.evictable_size = countEvictable s.node_store

theorem cinv_record_access (s : LrukReplacer) (fid : Nat) (h : CInv s) :
    CInv (record_access s fid) := by
  obtain ⟨hnd, hsz⟩ := h
  unfold record_access CInv
  cases hl : lookupNode s.node_store fid with
  | none =>
    dsimp only
    have hl2 : lookupNode (s.node_store ++ [(fid, LrukNode.mk_new fid s.k)]) fid =
        some (LrukNode.mk_new fid s.k) := by
      rw [lookupNode_append_right _ _ _ hl]
      simp [lookupNode]
    have hnd2 : ((s.node_store ++ [(fid, LrukNode.mk_new fid s.k)]).map Prod.fst).Nodup := by
      rw [List.map_append]
      simp only [List.map_cons, List.map_nil]
      rw [List.nodup_append]
      exact ⟨hnd, by simp, by simpa using lookupNode_none_not_mem _ _ hl⟩
    refine ⟨by rw [setNode_keys]; exact hnd2, ?_⟩
    have hc := countEvictable_setNode _ fid _
      ((LrukNode.mk_new fid s.k).insertHistoryTimestamp s.current_timestamp) hnd2 hl2
    rw [countEvictable_append] at hc
    rw [show countEvictable [(fid, LrukNode.mk_new fid s.k)] = 0 from rfl] at hc
    rw [show ((LrukNode.mk_new fid s.k).insertHistoryTimestamp
      s.current_timestamp).is_evictable = false from rfl] at hc
    rw [show (LrukNode.mk_new fid s.k).is_evictable = false from rfl] at hc
    simp only [Bool.false_eq_true, if_neg, not_false_iff] at hc
    omega
  | some n =>
    dsimp only
    refine ⟨by rw [setNode_keys]; exact hnd, ?_⟩
    have hc := countEvictable_setNode _ fid n
      (n.insertHistoryTimestamp s.current_timestamp) hnd hl
    rw [show (n.insertHistoryTimestamp s.current_timestamp).is_evictable
      = n.is_evictable from rfl] at hc
    omega

theorem cinv_pin (s : LrukReplacer) (fid : Nat) (h : CInv s) : CInv (s.pin fid) := by
  obtain ⟨hnd, hsz⟩ := h
  unfold LrukReplacer.pin
  cases hl : lookupNode s.node_store fid with
  | none => exact ⟨hnd, hsz⟩
  | some n =>
    dsimp only
    by_cases hev : n.is_evictable
    · rw [if_pos hev]
      have hc := countEvictable_setNode _ fid n { n with is_evictable := false } hnd hl
      have hpos := count_pos_of_evictable _ fid n hnd hl hev
      rw [hev] at hc
      simp only [if_pos] at hc
      simp only [Bool.false_eq_true, if_neg, not_false_iff] at hc
      refine ⟨by rw [setNode_keys]; exact hnd, ?_⟩
      simp only [CInv]
      omega
    · rw [if_neg hev]
      exact ⟨hnd, hsz⟩

theorem cinv_unpin (s : LrukReplacer) (fid : Nat) (h : CInv s) : CInv (s.unpin fid) := by
  obtain ⟨hnd, hsz⟩ := h
  unfold LrukReplacer.unpin
  cases hl : lookupNode s.node_store fid with
  | none => exact ⟨hnd, hsz⟩
  | some n =>
    dsimp only
    by_cases hev : n.is_evictable
    · rw [if_pos hev]
      exact ⟨hnd, hsz⟩
    · rw [if_neg hev]
      have hc := countEvictable_setNode _ fid n { n with is_evictable := true } hnd hl
      simp only [Bool.false_eq_true, if_neg, hev, not_false_iff, if_pos] at hc
      refine ⟨by rw [setNode_keys]; exact hnd, ?_⟩
      simp only [CInv]
      omega

theorem cinv_remove (s : LrukReplacer) (fid : Nat) (h : CInv s) : CInv (s.remove fid) := by
  obtain ⟨hnd, hsz⟩ := h
  unfold LrukReplacer.remove
  cases hl : lookupNode s.node_store fid with
  | none => exact ⟨hnd, hsz⟩
  | some n =>
    dsimp only
    by_cases hev : n.is_evictable
    · rw [if_pos hev]
      have hc := countEvictable_eraseNode _ fid n hnd hl
      rw [hev] at hc
      simp only [if_pos] at hc
      refine ⟨List.Nodup.sublist (List.Sublist.map _ (eraseNode_keys_sublist _ _)) hnd, ?_⟩
      simp only [CInv]
      omega
    · rw [if_neg hev]
      exact ⟨hnd, hsz⟩

theorem cinv_evict (s : LrukReplacer) (h : CInv s) : CInv (s.evict).2 := by
  obtain ⟨hnd, hsz⟩ := h
  unfold LrukReplacer.evict
  rcases hres : evictLoop s.current_timestamp s.node_store (0, 0, UMAX, false) with
    ⟨mfid, mkd, mearl, md⟩
  rcases evictLoop_result s.current_timestamp s.node_store (0, 0, UMAX, false) with
    heq | ⟨hmd, nd, hmem, hev⟩
  · rw [heq] at hres
    injection hres with h1 h2
    injection h2 with h2 h3
    injection h3 with h3 h4
    subst h4
    dsimp only
    exact ⟨hnd, hsz⟩
  · rw [hres] at hmd hmem
    simp only at hmd hmem
    subst hmd
    dsimp only
    have hlk : lookupNode s.node_store mfid = some nd :=
      lookupNode_of_mem_nodup _ _ _ hnd hmem
    have hc := countEvictable_eraseNode _ mfid nd hnd hlk
    rw [hev] at hc
    simp only [if_pos] at hc
    refine ⟨List.Nodup.sublist (List.Sublist.map _ (eraseNode_keys_sublist _ _)) hnd, ?_⟩
    simp only [CInv]
    omega

theorem cinv_applyROp (s : LrukReplacer) (op : ROp) (h : CInv s) : CInv (applyROp s op) := by
  cases op with
  | access fid => exact cinv_record_access s fid h
  | pin fid => exact cinv_pin s fid h
  | unpin fid => exact cinv_unpin s fid h
  | remove fid => exact cinv_remove s fid h
  | evict => exact cinv_evict s h

theorem cinv_runOps (k : Nat) (ops : List ROp) : CInv (runOps k ops) := by
  suffices hgen : ∀ l s, CInv s → CInv (List.foldl applyROp s l) by
    exact hgen ops (LrukReplacer.mk_new k) ⟨by simp [LrukReplacer.mk_new], rfl⟩
  intro l
  induction l with
  | nil => intro s hs; exact hs
  | cons op rest ih =>
    intro s hs
    exact ih (applyROp s op) (cinv_applyROp s op hs)

/-- C6: after any finite operation sequence from a fresh replacer,
`evictable_count` equals the number of known frames whose evictable flag is
set; and `pin` of an already-pinned frame and `unpin` of an already-evictable
frame are complete no-ops (in particular `evictable_count` is unchanged). -/
theorem evictable_count_invariant :
    (∀ k ops, (runOps k ops).evictable_count = countEvictable (runOps k ops).node_store) ∧
    (∀ (s : LrukReplacer) (fid : Nat) (n : LrukNode),
      lookupNode s.node_store fid = some n → n.is_evictable = false → s.pin fid = s) ∧
    (∀ (s : LrukReplacer) (fid : Nat) (n : LrukNode),
      lookupNode s.node_store fid = some n → n.is_evictable = true → s.unpin fid = s) := by
  refine ⟨fun k ops => (cinv_runOps k ops).2, ?_, ?_⟩
  · intro s fid n h hev
    unfold LrukReplacer.pin
    rw [h]
    dsimp only
    rw [if_neg (by rw [hev]; simp)]
  · intro s fid n h hev
    unfold LrukReplacer.unpin
    rw [h]
    dsimp only
    rw [if_pos hev]

/-- Witness for C6 at a concrete sequence and concrete idempotent pin/unpin. -/
theorem evictable_count_invariant_witness :
    (runOps 2 [ROp.access 1, ROp.unpin 1]).evictable_count
      = countEvictable (runOps 2 [ROp.access 1, ROp.unpin 1]).node_store ∧
    (runOps 2 [ROp.access 1]).pin 1 = runOps 2 [ROp.access 1] ∧
    (runOps 2 [ROp.access 1, ROp.unpin 1]).unpin 1 = runOps 2 [ROp.access 1, ROp.unpin 1] :=
  ⟨evictable_count_invariant.1 2 [ROp.access 1, ROp.unpin 1],
   evictable_count_invariant.2.1 _ 1 ⟨1, false, [0], 2⟩ (by decide) (by decide),
   evictable_count_invariant.2.2 _ 1 ⟨1, true, [0], 2⟩ (by decide) (by decide)⟩

/-- C10: `record_access` on a known frame changes only that frame's history
and the global clock: the evictable count, K, the frame's evictable flag and
every other frame's binding are unchanged. -/
theorem record_access_effect (s : LrukReplacer) (fid : Nat) (n : LrukNode)
    (h : lookupNode s.node_store fid = some n) :
    (record_access s fid).evictable_size = s.evictable_size ∧
    (record_access s fid).current_timestamp = s.current_timestamp + 1 ∧
    (record_access s fid).k = s.k ∧
    lookupNode (record_access s fid).node_store fid =
      some (n.insertHistoryTimestamp s.current_timestamp) ∧
    (n.insertHistoryTimestamp s.current_timestamp).is_evictable = n.is_evictable ∧
    (∀ g, g ≠ fid → lookupNode (record_access s fid).node_store g =
      lookupNode s.node_store g) := by
  unfold record_access
  rw [h]
  dsimp only
  refine ⟨rfl, rfl, rfl, ?_, rfl, ?_⟩
  · exact lookupNode_setNode_self _ _ _ _ h
  · intro g hg
    exact lookupNode_setNode_other _ _ _ _ hg

/-- Witness for C10 at a concrete state with a known frame. -/
theorem record_access_effect_witness :
    (record_access (runOps 2 [ROp.access 1]) 1).evictable_size
      = (runOps 2 [ROp.access 1]).evictable_size ∧
    (record_access (runOps 2 [ROp.access 1]) 1).current_timestamp
      = (runOps 2 [ROp.access 1]).current_timestamp + 1 ∧
    (record_access (runOps 2 [ROp.access 1]) 1).k = (runOps 2 [ROp.access 1]).k ∧
    lookupNode (record_access (runOps 2 [ROp.access 1]) 1).node_store 1 =
      some ((⟨1, false, [0], 2⟩ : LrukNode).insertHistoryTimestamp
        (runOps 2 [ROp.access 1]).current_timestamp) ∧
    ((⟨1, false, [0], 2⟩ : LrukNode).insertHistoryTimestamp
      (runOps 2 [ROp.access 1]).current_timestamp).is_evictable
      = (⟨1, false, [0], 2⟩ : LrukNode).is_evictable ∧
    (∀ g, g ≠ 1 → lookupNode (record_access (runOps 2 [ROp.access 1]) 1).node_store g =
      lookupNode (runOps 2 [ROp.access 1]).node_store g) :=
  record_access_effect (runOps 2 [ROp.access 1]) 1 ⟨1, false, [0], 2⟩ (by decide)

/-- Well-formedness of one node: non-empty, strictly increasing history of at
most K timestamps, all below the clock, and the node's K is the replacer's. -/
def NodeWf (now k : Nat) (n : LrukNode) : Prop :=
  n.history ≠ [] ∧ n.history.Chain' (· < ·) ∧ n.history.length ≤ k ∧
  (∀ t ∈ n.history, t < now) ∧ n.k = k

/-- Histories of two distinct nodes share no timestamp. -/
def HistDisj (a b : Nat × LrukNode) : Prop := ∀ t ∈ a.2.history, t ∉ b.2.history

/-- Well-formedness of a replacer state: positive K, the bookkeeping
invariant, well-formed nodes and pairwise disjoint histories.  All reachable
states of a replacer with K at least 1 satisfy it. -/
def WfR (s : LrukReplacer) : Prop :=
  1 ≤ s.k ∧ CInv s ∧
  (∀ e ∈ s.node_store, NodeWf s.current_timestamp s.k e.2) ∧
  s.node_store.Pairwise HistDisj

theorem nodewf_mono (now now2 k : Nat) (n : LrukNode) (h : NodeWf now k n)
    (hle : now ≤ now2) : NodeWf now2 k n := by
  obtain ⟨h1, h2, h3, h4, h5⟩ := h
  exact ⟨h1, h2, h3, fun t ht => lt_of_lt_of_le (h4 t ht) hle, h5⟩

theorem insertHistory_mem (n : LrukNode) (ts : Nat) :
    ∀ t ∈ (n.insertHistoryTimestamp ts).history, t ∈ n.history ∨ t = ts := by
  intro t ht
  unfold LrukNode.insertHistoryTimestamp at ht
  simp only at ht
  split at ht
  · have := List.mem_of_mem_tail ht
    rcases List.mem_append.mp this with h | h
    · exact Or.inl h
    · simp at h
      exact Or.inr h
  · rcases List.mem_append.mp ht with h | h
    · exact Or.inl h
    · simp at h
      exact Or.inr h

theorem insertHistory_nodewf (n : LrukNode) (now k : Nat) (hk : 1 ≤ k)
    (h1 : n.history.Chain' (· < ·)) (h3 : n.history.length ≤ k)
    (h4 : ∀ t ∈ n.history, t < now) (h5 : n.k = k) :
    NodeWf (now + 1) k (n.insertHistoryTimestamp now) := by
  unfold LrukNode.insertHistoryTimestamp NodeWf
  simp only [h5]
  have hchain : (n.history ++ [now]).Chain' (· < ·) := by
    rw [List.chain'_append]
    refine ⟨h1, List.chain'_singleton now, ?_⟩
    intro x hx y hy
    simp only [List.head?_cons, Option.mem_def, Option.some.injEq] at hy
    subst hy
    exact h4 x (List.mem_of_mem_getLast? hx)
  split
  next hlen =>
    simp only [List.length_append, List.length_cons, List.length_nil] at hlen
    refine ⟨?_, hchain.tail, ?_, ?_, trivial⟩
    · have : n.history ≠ [] := by
        intro he
        rw [he] at hlen
        simp at hlen
        omega
      cases hh : n.history with
      | nil => exact absurd hh this
      | cons a rest => simp [hh]
    · rw [List.length_tail]
      simp only [List.length_append, List.length_cons, List.length_nil]
      omega
    · intro t ht
      have := List.mem_of_mem_tail ht
      rcases List.mem_append.mp this with h | h
      · exact lt_trans (h4 t h) (by omega)
      · simp at h
        omega
  next =>
    refine ⟨by simp, hchain, ?_, ?_, trivial⟩
    · simp only [List.length_append, List.length_cons, List.length_nil] at *
      omega
    · intro t ht
      rcases List.mem_append.mp ht with h | h
      · exact lt_trans (h4 t h) (by omega)
      · simp at h
        omega

theorem setNode_mem_nodup (l : List (Nat × LrukNode)) (fid : Nat) (m : LrukNode)
    (hnd : (l.map Prod.fst).Nodup) :
    ∀ x ∈ setNode l fid m, (x ∈ l ∧ x.1 ≠ fid) ∨ x = (fid, m) := by
  induction l with
  | nil => simp [setNode]
  | cons e rest ih =>
    simp only [List.map_cons, List.nodup_cons] at hnd
    intro x hx
    unfold setNode at hx
    split at hx
    next he =>
      rcases List.mem_cons.mp hx with rfl | hmem
      · exact Or.inr rfl
      · refine Or.inl ⟨List.mem_cons_of_mem _ hmem, ?_⟩
        intro hxf
        exact hnd.1 (by
          rw [he]
          rw [← hxf]
          exact List.mem_map.mpr ⟨x, hmem, rfl⟩)
    next he =>
      rcases List.mem_cons.mp hx with rfl | hmem
      · exact Or.inl ⟨List.mem_cons_self _ _, fun hh => he hh⟩
      · rcases ih hnd.2 x hmem with ⟨ha, hb⟩ | hc
        · exact Or.inl ⟨List.mem_cons_of_mem _ ha, hb⟩
        · exact Or.inr hc

theorem setNode_mem_weak (l : List (Nat × LrukNode)) (fid : Nat) (m : LrukNode) :
    ∀ x ∈ setNode l fid m, x ∈ l ∨ x.2.history = m.history := by
  induction l with
  | nil => simp [setNode]
  | cons a r2 ih2 =>
    intro x hx
    unfold setNode at hx
    split at hx
    · rcases List.mem_cons.mp hx with rfl | hm2
      · exact Or.inr rfl
      · exact Or.inl (List.mem_cons_of_mem _ hm2)
    · rcases List.mem_cons.mp hx with rfl | hm2
      · exact Or.inl (List.mem_cons_self _ _)
      · rcases ih2 x hm2 with ha | hb2
        · exact Or.inl (List.mem_cons_of_mem _ ha)
        · exact Or.inr hb2

theorem pairwise_setNode_update (l : List (Nat × LrukNode)) (fid : Nat) (n m : LrukNode)
    (now : Nat)
    (h : lookupNode l fid = some n)
    (hsub : ∀ t ∈ m.history, t ∈ n.history ∨ t = now)
    (hbound : ∀ e ∈ l, ∀ t ∈ e.2.history, t < now)
    (hp : l.Pairwise HistDisj) : (setNode l fid m).Pairwise HistDisj := by
  induction l with
  | nil => simp [setNode]
  | cons e rest ih =>
    rw [List.pairwise_cons] at hp
    unfold lookupNode at h
    unfold setNode
    split at h
    next he =>
      injection h with h
      rw [if_pos he]
      rw [List.pairwise_cons]
      refine ⟨?_, hp.2⟩
      intro b hb t htm
      rcases hsub t htm with hin | rfl
      · rw [← h] at hin
        exact hp.1 b hb t hin
      · intro hcon
        exact absurd (hbound b (List.mem_cons_of_mem _ hb) t hcon) (by omega)
    next he =>
      rw [if_neg he]
      rw [List.pairwise_cons]
      refine ⟨?_, ih h (fun x hx => hbound x (List.mem_cons_of_mem _ hx)) hp.2⟩
      intro b hb t hte
      rcases setNode_mem_weak rest fid m b hb with hbr | hbm
      · exact hp.1 b hbr t hte
      · rw [hbm]
        intro htm
        rcases hsub t htm with hin | rfl
        · exact (hp.1 (fid, n) (lookupNode_mem _ _ _ h) t hte) hin
        · exact absurd (hbound e (List.mem_cons_self _ _) t hte) (by omega)

theorem pairwise_append_fresh (l : List (Nat × LrukNode)) (fid : Nat) (k : Nat)
    (hp : l.Pairwise HistDisj) :
    (l ++ [(fid, LrukNode.mk_new fid k)]).Pairwise HistDisj := by
  rw [List.pairwise_append]
  refine ⟨hp, by simp, ?_⟩
  intro a _ b hb
  simp only [List.mem_singleton] at hb
  subst hb
  intro t _
  simp [LrukNode.mk_new]

theorem wfr_record_access (s : LrukReplacer) (fid : Nat) (h : WfR s) :
    WfR (record_access s fid) := by
  obtain ⟨hk, hcinv, hwf, hp⟩ := h
  have hc2 := cinv_record_access s fid hcinv
  unfold record_access at hc2 ⊢
  cases hl : lookupNode s.node_store fid with
  | some n =>
    rw [hl] at hc2
    dsimp only at hc2 ⊢
    refine ⟨hk, hc2, ?_, ?_⟩
    · intro e he
      rcases setNode_mem_nodup _ _ _ hcinv.1 e he with ⟨hmem, _⟩ | rfl
      · exact nodewf_mono _ _ _ _ (hwf e hmem) (Nat.le_succ _)
      · have hn := hwf (fid, n) (lookupNode_mem _ _ _ hl)
        exact insertHistory_nodewf n s.current_timestamp s.k hk
          hn.2.1 hn.2.2.1 hn.2.2.2.1 hn.2.2.2.2
    · exact pairwise_setNode_update _ fid n _ s.current_timestamp hl
        (insertHistory_mem n s.current_timestamp)
        (fun e he t ht => (hwf e he).2.2.2.1 t ht) hp
  | none =>
    rw [hl] at hc2
    dsimp only at hc2 ⊢
    have hnd2 : ((s.node_store ++ [(fid, LrukNode.mk_new fid s.k)]).map Prod.fst).Nodup := by
      rw [List.map_append]
      simp only [List.map_cons, List.map_nil]
      rw [List.nodup_append]
      exact ⟨hcinv.1, by simp, by simpa using lookupNode_none_not_mem _ _ hl⟩
    have hl2 : lookupNode (s.node_store ++ [(fid, LrukNode.mk_new fid s.k)]) fid =
        some (LrukNode.mk_new fid s.k) := by
      rw [lookupNode_append_right _ _ _ hl]
      simp [lookupNode]
    refine ⟨hk, hc2, ?_, ?_⟩
    · intro e he
      rcases setNode_mem_nodup _ _ _ hnd2 e he with ⟨hmem, hne⟩ | rfl
      · rcases List.mem_append.mp hmem with hm | hm
        · exact nodewf_mono _ _ _ _ (hwf e hm) (Nat.le_succ _)
        · simp only [List.mem_singleton] at hm
          exact absurd (by rw [hm]) hne
      · exact insertHistory_nodewf (LrukNode.mk_new fid s.k) s.current_timestamp s.k hk
          (by simp [LrukNode.mk_new]) (by simp [LrukNode.mk_new]) (by simp [LrukNode.mk_new])
          rfl
    · refine pairwise_setNode_update _ fid (LrukNode.mk_new fid s.k) _ s.current_timestamp hl2
        (insertHistory_mem (LrukNode.mk_new fid s.k) s.current_timestamp) ?_
        (pairwise_append_fresh _ fid s.k hp)
      intro e he t ht
      rcases List.mem_append.mp he with hm | hm
      · exact (hwf e hm).2.2.2.1 t ht
      · simp only [List.mem_singleton] at hm
        rw [hm] at ht
        simp [LrukNode.mk_new] at ht

theorem wfr_pin (s : LrukReplacer) (fid : Nat) (h : WfR s) : WfR (s.pin fid) := by
  obtain ⟨hk, hcinv, hwf, hp⟩ := h
  have hc2 := cinv_pin s fid hcinv
  unfold LrukReplacer.pin at hc2 ⊢
  cases hl : lookupNode s.node_store fid with
  | none => exact ⟨hk, hcinv, hwf, hp⟩
  | some n =>
    rw [hl] at hc2
    dsimp only at hc2 ⊢
    by_cases hev : n.is_evictable
    · rw [if_pos hev] at hc2 ⊢
      refine ⟨hk, hc2, ?_, ?_⟩
      · intro e he
        rcases setNode_mem_nodup _ _ _ hcinv.1 e he with ⟨hmem, _⟩ | rfl
        · exact hwf e hmem
        · exact hwf (fid, n) (lookupNode_mem _ _ _ hl)
      · exact pairwise_setNode_update _ fid n _ s.current_timestamp hl
          (fun t ht => Or.inl ht)
          (fun e he t ht => (hwf e he).2.2.2.1 t ht) hp
    · rw [if_neg hev]
      exact ⟨hk, hcinv, hwf, hp⟩

theorem wfr_unpin (s : LrukReplacer) (fid : Nat) (h : WfR s) : WfR (s.unpin fid) := by
  obtain ⟨hk, hcinv, hwf, hp⟩ := h
  have hc2 := cinv_unpin s fid hcinv
  unfold LrukReplacer.unpin at hc2 ⊢
  cases hl : lookupNode s.node_store fid with
  | none => exact ⟨hk, hcinv, hwf, hp⟩
  | some n =>
    rw [hl] at hc2
    dsimp only at hc2 ⊢
    by_cases hev : n.is_evictable
    · rw [if_pos hev]
      exact ⟨hk, hcinv, hwf, hp⟩
    · rw [if_neg hev] at hc2 ⊢
      refine ⟨hk, hc2, ?_, ?_⟩
      · intro e he
        rcases setNode_mem_nodup _ _ _ hcinv.1 e he with ⟨hmem, _⟩ | rfl
        · exact hwf e hmem
        · exact hwf (fid, n) (lookupNode_mem _ _ _ hl)
      · exact pairwise_setNode_update _ fid n _ s.current_timestamp hl
          (fun t ht => Or.inl ht)
          (fun e he t ht => (hwf e he).2.2.2.1 t ht) hp

theorem wfr_remove (s : LrukReplacer) (fid : Nat) (h : WfR s) : WfR (s.remove fid) := by
  obtain ⟨hk, hcinv, hwf, hp⟩ := h
  have hc2 := cinv_remove s fid hcinv
  unfold LrukReplacer.remove at hc2 ⊢
  cases hl : lookupNode s.node_store fid with
  | none => exact ⟨hk, hcinv, hwf, hp⟩
  | some n =>
    rw [hl] at hc2
    dsimp only at hc2 ⊢
    by_cases hev : n.is_evictable
    · rw [if_pos hev] at hc2 ⊢
      refine ⟨hk, hc2, ?_, ?_⟩
      · intro e he
        exact hwf e ((eraseNode_keys_sublist _ _).mem he)
      · exact hp.sublist (eraseNode_keys_sublist _ _)
    · rw [if_neg hev]
      exact ⟨hk, hcinv, hwf, hp⟩

theorem wfr_evict (s : LrukReplacer) (h : WfR s) : WfR (s.evict).2 := by
  obtain ⟨hk, hcinv, hwf, hp⟩ := h
  have hc2 := cinv_evict s hcinv
  unfold LrukReplacer.evict at hc2 ⊢
  rcases hres : evictLoop s.current_timestamp s.node_store (0, 0, UMAX, false) with
    ⟨mfid, mkd, mearl, md⟩
  rw [hres] at hc2
  cases md with
  | false =>
    dsimp only at hc2 ⊢
    exact ⟨hk, hcinv, hwf, hp⟩
  | true =>
    dsimp only at hc2 ⊢
    refine ⟨hk, hc2, ?_, ?_⟩
    · intro e he
      exact hwf e ((eraseNode_keys_sublist _ _).mem he)
    · exact hp.sublist (eraseNode_keys_sublist _ _)

theorem wfr_applyROp (s : LrukReplacer) (op : ROp) (h : WfR s) : WfR (applyROp s op) := by
  cases op with
  | access fid => exact wfr_record_access s fid h
  | pin fid => exact wfr_pin s fid h
  | unpin fid => exact wfr_unpin s fid h
  | remove fid => exact wfr_remove s fid h
  | evict => exact wfr_evict s h

theorem wfr_runOps (k : Nat) (ops : List ROp) (hk : 1 ≤ k) : WfR (runOps k ops) := by
  suffices hgen : ∀ l s, WfR s → WfR (List.foldl applyROp s l) by
    exact hgen ops (LrukReplacer.mk_new k)
      ⟨hk, ⟨by simp [LrukReplacer.mk_new], rfl⟩, by simp [LrukReplacer.mk_new], by
        simp [LrukReplacer.mk_new]⟩
  intro l
  induction l with
  | nil => intro s hs; exact hs
  | cons op rest ih =>
    intro s hs
    exact ih (applyROp s op) (wfr_applyROp s op hs)

/-- Backward K-distance as the spec states it: `none` is +infinity (fewer
than K recorded accesses), otherwise now minus the K-th most recent access
(the front of the retained history). -/
def specKDist (n : LrukNode) (now : Nat) : Option Nat :=
  if n.history.length < n.k then none else some (now - n.getEarliestTimestamp)

/-- Strict order on spec distances, +infinity greatest. -/
def distBelow : Option Nat → Option Nat → Prop
  | some x, some y => x < y
  | some _, none => True
  | none, _ => False

theorem earliest_mem (n : LrukNode) (h : n.history ≠ []) :
    n.getEarliestTimestamp ∈ n.history := by
  unfold LrukNode.getEarliestTimestamp
  cases hh : n.history with
  | nil => exact absurd hh h
  | cons a rest => simp

theorem kd_pos (n : LrukNode) (now : Nat) (h1 : n.history ≠ [])
    (h2 : ∀ t ∈ n.history, t < now) : 1 ≤ n.getBackwardsKDistance now := by
  unfold LrukNode.getBackwardsKDistance LrukNode.hasInfBackwardKDist
  split
  · unfold UMAX
    omega
  · have := h2 _ (earliest_mem n h1)
    omega

theorem earliest_lt_now (n : LrukNode) (now : Nat) (h1 : n.history ≠ [])
    (h2 : ∀ t ∈ n.history, t < now) : n.getEarliestTimestamp < now :=
  h2 _ (earliest_mem n h1)

/-- The accumulated candidate of the eviction scan is the unique maximum of
the processed prefix under (distance, then smaller earliest timestamp). -/
def LoopInv (now : Nat) (l : List (Nat × LrukNode)) (acc : Nat × Nat × Nat × Bool) : Prop :=
  (acc = (0, 0, UMAX, false) ∧ ∀ e ∈ l, e.2.is_evictable = false) ∨
  (acc.2.2.2 = true ∧ ∃ nd, (acc.1, nd) ∈ l ∧ nd.is_evictable = true ∧
    acc.2.1 = nd.getBackwardsKDistance now ∧ acc.2.2.1 = nd.getEarliestTimestamp ∧
    ∀ e ∈ l, e.2.is_evictable = true → e.1 ≠ acc.1 →
      (e.2.getBackwardsKDistance now < acc.2.1 ∨
        (e.2.getBackwardsKDistance now = acc.2.1 ∧ acc.2.2.1 < e.2.getEarliestTimestamp)))

theorem evictLoop_max (now : Nat) :
    ∀ (rest done : List (Nat × LrukNode)) (acc : Nat × Nat × Nat × Bool),
      ((done ++ rest).map Prod.fst).Nodup →
      (∀ e ∈ done ++ rest, e.2.history ≠ [] ∧ ∀ t ∈ e.2.history, t < now) →
      (done ++ rest).Pairwise HistDisj →
      LoopInv now done acc →
      LoopInv now (done ++ rest) (evictLoop now rest acc) := by
  intro rest
  induction rest with
  | nil =>
    intro done acc _ _ _ hinv
    simpa using hinv
  | cons e rest2 ih =>
    intro done acc hnd hwf hp hinv
    obtain ⟨mfid, mkd, mearl, md⟩ := acc
    have hassoc : done ++ e :: rest2 = (done ++ [e]) ++ rest2 := by simp
    have hekey : e.1 ∈ ((done ++ [e]).map Prod.fst) := by simp
    have hnd2 : (((done ++ [e]) ++ rest2).map Prod.fst).Nodup := by rw [← hassoc]; exact hnd
    have hwf2 : ∀ x ∈ (done ++ [e]) ++ rest2, x.2.history ≠ [] ∧ ∀ t ∈ x.2.history, t < now := by
      rw [← hassoc]; exact hwf
    have hp2 : ((done ++ [e]) ++ rest2).Pairwise HistDisj := by rw [← hassoc]; exact hp
    have hkey_done : ∀ x ∈ done, x.1 ≠ e.1 := by
      intro x hx hxe
      rw [List.map_append] at hnd
      rcases List.nodup_append.mp hnd with ⟨_, _, hdisj⟩
      exact hdisj (List.mem_map.mpr ⟨x, hx, rfl⟩) (by simp [hxe])
    have hwfe := hwf e (by simp)
    have hkpos : 1 ≤ e.2.getBackwardsKDistance now := kd_pos e.2 now hwfe.1 hwfe.2
    rw [hassoc]
    unfold evictLoop
    split
    next hc =>
      refine ih (done ++ [e]) _ hnd2 hwf2 hp2 ?_
      right
      refine ⟨rfl, e.2, by simp, hc.1, rfl, rfl, ?_⟩
      intro g hg hgev hgne
      rcases List.mem_append.mp hg with hgd | hge
      · rcases hinv with ⟨⟨rfl2⟩, hnone⟩ | ⟨_, nd0, hmem0, hev0, hkd0, hearl0, hdom⟩
        · rw [hnone g hgd] at hgev
          exact absurd hgev (by simp)
        · simp only at hdom hkd0 hearl0
          by_cases hgm : g.1 = mfid
          · have : g = (mfid, nd0) := by
              have h1 := lookupNode_of_mem_nodup done g.1 g.2
                (by rw [List.map_append] at hnd; exact (List.nodup_append.mp hnd).1)
                (by cases g; exact hgd)
              have h2 := lookupNode_of_mem_nodup done mfid nd0
                (by rw [List.map_append] at hnd; exact (List.nodup_append.mp hnd).1) hmem0
              rw [hgm] at h1
              rw [h1] at h2
              injection h2 with h2
              cases g
              simp only at hgm h2 ⊢
              rw [hgm, h2]
            rw [this]
            simp only
            left
            rw [← hkd0]
            rcases hc with ⟨_, hlt⟩
            exact hlt
          · have := hdom g hgd hgev hgm
            rcases this with hlt | ⟨heq, hle⟩
            · left
              exact lt_trans hlt hc.2
            · left
              rw [heq]
              exact hc.2
      · simp only [List.mem_singleton] at hge
        subst hge
        exact absurd rfl hgne
    next hc1 =>
      split
      next hc =>
        obtain ⟨hev, hkdeq, hearl⟩ := hc
        rcases hinv with ⟨heqacc, hnone⟩ | ⟨_, nd0, hmem0, hev0, hkd0, hearl0, hdom⟩
        · exfalso
          injection heqacc with h1 h2
          injection h2 with h2 h3
          rw [h2] at hkdeq
          omega
        · simp only at hkd0 hearl0 hdom
          refine ih (done ++ [e]) _ hnd2 hwf2 hp2 ?_
          right
          refine ⟨rfl, e.2, by simp, hev, rfl, rfl, ?_⟩
          intro g hg hgev hgne
          rcases List.mem_append.mp hg with hgd | hge
          · by_cases hgm : g.1 = mfid
            · have hgnd : g = (mfid, nd0) := by
                have h1 := lookupNode_of_mem_nodup done g.1 g.2
                  (by rw [List.map_append] at hnd; exact (List.nodup_append.mp hnd).1)
                  (by cases g; exact hgd)
                have h2 := lookupNode_of_mem_nodup done mfid nd0
                  (by rw [List.map_append] at hnd; exact (List.nodup_append.mp hnd).1) hmem0
                rw [hgm] at h1
                rw [h1] at h2
                injection h2 with h2
                cases g
                simp only at hgm h2 ⊢
                rw [hgm, h2]
              rw [hgnd]
              simp only
              right
              rw [← hkd0, ← hearl0]
              exact ⟨hkdeq.symm, hearl⟩
            · have := hdom g hgd hgev hgm
              rcases this with hlt | ⟨heq, hlt2⟩
              · left
                rw [hkdeq]
                exact hlt
              · right
                rw [hkdeq, heq]
                exact ⟨rfl, lt_trans hearl hlt2⟩
          · simp only [List.mem_singleton] at hge
            subst hge
            exact absurd rfl hgne
      next hc2 =>
        refine ih (done ++ [e]) _ hnd2 hwf2 hp2 ?_
        by_cases heev : e.2.is_evictable
        · rcases hinv with ⟨heqacc, hnone⟩ | ⟨hmd, nd0, hmem0, hev0, hkd0, hearl0, hdom⟩
          · exfalso
            injection heqacc with h1 h2
            injection h2 with h2 h3
            injection h3 with h3 h4
            rw [h2] at hc1 hc2
            exact hc1 ⟨heev, by omega⟩
          · right
            simp only at hkd0 hearl0 hdom hmd
            refine ⟨hmd, nd0, List.mem_append_left _ hmem0, hev0, hkd0, hearl0, ?_⟩
            intro g hg hgev hgne
            rcases List.mem_append.mp hg with hgd | hge
            · exact hdom g hgd hgev hgne
            · simp only [List.mem_singleton] at hge
              subst hge
              have hne_kd : ¬ mkd < g.2.getBackwardsKDistance now := fun hx => hc1 ⟨hgev, hx⟩
              have hne_tie : ¬ g.2.getBackwardsKDistance now = mkd ∨
                  ¬ g.2.getEarliestTimestamp < mearl := by
                by_cases hx : g.2.getBackwardsKDistance now = mkd
                · right
                  intro hy
                  exact hc2 ⟨hgev, hx, hy⟩
                · exact Or.inl hx
              show g.2.getBackwardsKDistance now < mkd ∨
                (g.2.getBackwardsKDistance now = mkd ∧ mearl < g.2.getEarliestTimestamp)
              by_cases hkd : g.2.getBackwardsKDistance now = mkd
              · right
                refine ⟨hkd, ?_⟩
                have hnlt : ¬ g.2.getEarliestTimestamp < mearl := by
                  rcases hne_tie with ha | ha
                  · exact absurd hkd ha
                  · exact ha
                have hmearl_ne : mearl ≠ g.2.getEarliestTimestamp := by
                  rw [hearl0]
                  have hne_entry : (mfid, nd0) ≠ g := by
                    intro hcon
                    rw [← hcon] at hgne
                    exact hgne rfl
                  have hmem_g : g ∈ done ++ g :: rest2 := by simp
                  have hmem_0 : (mfid, nd0) ∈ done ++ g :: rest2 :=
                    List.mem_append_left _ hmem0
                  have hpair : HistDisj (mfid, nd0) g ∨ HistDisj g (mfid, nd0) := by
                    rcases List.pairwise_append.mp hp with ⟨hpd, hpr, hcross⟩
                    rcases List.mem_append.mp hmem_0 with h0d | h0r
                    · exact Or.inl (hcross _ h0d _ (List.mem_cons_self _ _))
                    · simp only [List.mem_cons] at h0r
                      rcases h0r with h0g | h0r2
                      · exact absurd h0g hne_entry
                      · rw [List.pairwise_cons] at hpr
                        exact Or.inr (hpr.1 _ h0r2)
                  intro heq
                  have hm0 : nd0.getEarliestTimestamp ∈ nd0.history :=
                    earliest_mem nd0 (hwf (mfid, nd0) hmem_0).1
                  have hmg : g.2.getEarliestTimestamp ∈ g.2.history :=
                    earliest_mem g.2 (hwf g hmem_g).1
                  rcases hpair with hd | hd
                  · exact hd _ hm0 (by rw [heq] at hm0 ⊢; exact hmg)
                  · exact hd _ hmg (by rw [← heq] at hmg ⊢; exact hm0)
                omega
              · left
                omega
        · rcases hinv with ⟨heqacc, hnone⟩ | ⟨hmd, nd0, hmem0, hev0, hkd0, hearl0, hdom⟩
          · left
            refine ⟨heqacc, ?_⟩
            intro g hg
            rcases List.mem_append.mp hg with hgd | hge
            · exact hnone g hgd
            · simp only [List.mem_singleton] at hge
              subst hge
              simpa using heev
          · right
            simp only at hkd0 hearl0 hdom hmd
            refine ⟨hmd, nd0, List.mem_append_left _ hmem0, hev0, hkd0, hearl0, ?_⟩
            intro g hg hgev hgne
            rcases List.mem_append.mp hg with hgd | hge
            · exact hdom g hgd hgev hgne
            · simp only [List.mem_singleton] at hge
              subst hge
              exact absurd hgev (by simpa using heev)

theorem code_to_spec (m n : LrukNode) (now : Nat) (hnow : now < UMAX)
    (hm1 : m.history ≠ []) (hm2 : ∀ t ∈ m.history, t < now)
    (hn1 : n.history ≠ []) (hn2 : ∀ t ∈ n.history, t < now)
    (h : m.getBackwardsKDistance now < n.getBackwardsKDistance now ∨
      (m.getBackwardsKDistance now = n.getBackwardsKDistance now ∧
        n.getEarliestTimestamp < m.getEarliestTimestamp)) :
    distBelow (specKDist m now) (specKDist n now) ∨
    (specKDist m now = specKDist n now ∧
      n.getEarliestTimestamp < m.getEarliestTimestamp) := by
  have hem := earliest_lt_now m now hm1 hm2
  have hen := earliest_lt_now n now hn1 hn2
  unfold LrukNode.getBackwardsKDistance LrukNode.hasInfBackwardKDist at h
  unfold specKDist
  by_cases h1 : m.history.length < m.k <;> by_cases h2 : n.history.length < n.k
  · rw [if_pos (by simpa using h1), if_pos (by simpa using h2)] at h
    rw [if_pos h1, if_pos h2]
    rcases h with hlt | ⟨_, hlt2⟩
    · omega
    · exact Or.inr ⟨rfl, hlt2⟩
  · rw [if_pos (by simpa using h1), if_neg (by simpa using h2)] at h
    exfalso
    unfold UMAX at h hnow
    rcases h with hlt | ⟨heq, _⟩ <;> omega
  · rw [if_neg h1, if_pos h2]
    exact Or.inl trivial
  · rw [if_neg (by simpa using h1), if_neg (by simpa using h2)] at h
    rw [if_neg h1, if_neg h2]
    rcases h with hlt | ⟨heq, hlt2⟩
    · exact Or.inl hlt
    · exact Or.inr ⟨by rw [heq], hlt2⟩

/-- C3 (amended): on every well-formed replacer state (all states reachable
with K at least 1 are such) whose clock has not yet reached u64::MAX — so
that no finite distance collides with the u64::MAX encoding of +infinity —
`evict` returns None exactly when no evictable frame exists, and otherwise
returns the evictable frame with the largest backward K-distance (+infinity
for frames with fewer than K accesses), ties broken by the smallest earliest
retained timestamp; it removes the chosen node and decrements
`evictable_count` by one. -/
theorem evict_lruk (s : LrukReplacer) (h : WfR s) (hts : s.current_timestamp < UMAX) :
    ((s.evict).1 = none ↔ ∀ e ∈ s.node_store, e.2.is_evictable = false) ∧
    (∀ f, (s.evict).1 = some f → ∃ n, lookupNode s.node_store f = some n ∧
      n.is_evictable = true ∧
      (∀ e ∈ s.node_store, e.2.is_evictable = true → e.1 ≠ f →
        distBelow (specKDist e.2 s.current_timestamp) (specKDist n s.current_timestamp) ∨
        (specKDist e.2 s.current_timestamp = specKDist n s.current_timestamp ∧
          n.getEarliestTimestamp < e.2.getEarliestTimestamp)) ∧
      (s.evict).2.node_store = eraseNode s.node_store f ∧
      1 ≤ s.evictable_size ∧
      (s.evict).2.evictable_size = s.evictable_size - 1) := by
  obtain ⟨hk, hcinv, hwf, hp⟩ := h
  have hloop := evictLoop_max s.current_timestamp s.node_store [] (0, 0, UMAX, false)
    (by simpa using hcinv.1)
    (by
      intro e he
      simp only [List.nil_append] at he
      exact ⟨(hwf e he).1, (hwf e he).2.2.2.1⟩)
    (by simpa using hp)
    (Or.inl ⟨rfl, by simp⟩)
  simp only [List.nil_append] at hloop
  unfold LrukReplacer.evict
  rcases hres : evictLoop s.current_timestamp s.node_store (0, 0, UMAX, false) with
    ⟨mfid, mkd, mearl, md⟩
  rw [hres] at hloop
  cases md with
  | false =>
    dsimp only
    constructor
    · constructor
      · intro _
        rcases hloop with ⟨_, hnone⟩ | ⟨hmd, _⟩
        · exact hnone
        · simp at hmd
      · intro _
        rfl
    · intro f hf
      exact absurd hf (by simp)
  | true =>
    dsimp only
    rcases hloop with ⟨heq, _⟩ | ⟨_, nd, hmem, hev, hkd, hearl, hdom⟩
    · exfalso
      injection heq with h1 h2
      injection h2 with h2 h3
      injection h3 with h3 h4
      exact absurd h4.symm (by simp)
    · simp only at hkd hearl hdom hmem
      constructor
      · constructor
        · intro hcon
          exact absurd hcon (by simp)
        · intro hall
          rw [hall (mfid, nd) hmem] at hev
          exact absurd hev (by simp)
      · intro f hf
        injection hf with hf
        subst hf
        refine ⟨nd, lookupNode_of_mem_nodup _ _ _ hcinv.1 hmem, hev, ?_, rfl, ?_, rfl⟩
        · intro e he heev hene
          have hd := hdom e he heev hene
          rw [hkd, hearl] at hd
          exact code_to_spec e.2 nd s.current_timestamp hts
            (hwf e he).1 (hwf e he).2.2.2.1
            (hwf (mfid, nd) hmem).1 (hwf (mfid, nd) hmem).2.2.2.1
            hd
        · have hcp := count_pos_of_evictable _ mfid nd hcinv.1
            (lookupNode_of_mem_nodup _ _ _ hcinv.1 hmem) hev
          rw [hcinv.2]
          exact hcp

/-- Witness for the amended C3 theorem at a concrete reachable state. -/
theorem evict_lruk_witness :
    (((runOps 2 [ROp.access 1, ROp.access 2, ROp.unpin 1, ROp.unpin 2]).evict).1 = none ↔
      ∀ e ∈ (runOps 2 [ROp.access 1, ROp.access 2, ROp.unpin 1, ROp.unpin 2]).node_store,
        e.2.is_evictable = false) ∧
    (∀ f, ((runOps 2 [ROp.access 1, ROp.access 2, ROp.unpin 1, ROp.unpin 2]).evict).1 = some f →
      ∃ n, lookupNode (runOps 2 [ROp.access 1, ROp.access 2, ROp.unpin 1,
        ROp.unpin 2]).node_store f = some n ∧
      n.is_evictable = true ∧
      (∀ e ∈ (runOps 2 [ROp.access 1, ROp.access 2, ROp.unpin 1, ROp.unpin 2]).node_store,
        e.2.is_evictable = true → e.1 ≠ f →
        distBelow (specKDist e.2 (runOps 2 [ROp.access 1, ROp.access 2, ROp.unpin 1,
            ROp.unpin 2]).current_timestamp)
          (specKDist n (runOps 2 [ROp.access 1, ROp.access 2, ROp.unpin 1,
            ROp.unpin 2]).current_timestamp) ∨
        (specKDist e.2 (runOps 2 [ROp.access 1, ROp.access 2, ROp.unpin 1,
            ROp.unpin 2]).current_timestamp
          = specKDist n (runOps 2 [ROp.access 1, ROp.access 2, ROp.unpin 1,
            ROp.unpin 2]).current_timestamp ∧
          n.getEarliestTimestamp < e.2.getEarliestTimestamp)) ∧
      ((runOps 2 [ROp.access 1, ROp.access 2, ROp.unpin 1, ROp.unpin 2]).evict).2.node_store
        = eraseNode (runOps 2 [ROp.access 1, ROp.access 2, ROp.unpin 1,
            ROp.unpin 2]).node_store f ∧
      1 ≤ (runOps 2 [ROp.access 1, ROp.access 2, ROp.unpin 1, ROp.unpin 2]).evictable_size ∧
      ((runOps 2 [ROp.access 1, ROp.access 2, ROp.unpin 1,
        ROp.unpin 2]).evict).2.evictable_size
        = (runOps 2 [ROp.access 1, ROp.access 2, ROp.unpin 1,
            ROp.unpin 2]).evictable_size - 1) :=
  evict_lruk (runOps 2 [ROp.access 1, ROp.access 2, ROp.unpin 1, ROp.unpin 2])
    (wfr_runOps 2 [ROp.access 1, ROp.access 2, ROp.unpin 1, ROp.unpin 2] (by omega))
    (by decide)

/-- The state after [access 1, access 1, access 2] on a fresh K=2 replacer. -/
def c3base : LrukReplacer := runOps 2 [ROp.access 1, ROp.access 1, ROp.access 2]

/-- `c3base` followed by n further accesses of frame 3. -/
def c3g (n : Nat) : LrukReplacer :=
  List.foldl applyROp c3base (List.replicate n (ROp.access 3))

theorem c3g_closed : ∀ n, 2 ≤ n → c3g n =
    ⟨[(1, ⟨1, false, [0, 1], 2⟩), (2, ⟨2, false, [2], 2⟩),
      (3, ⟨3, false, [n + 1, n + 2], 2⟩)], 0, 3 + n, 2⟩ := by
  intro n
  induction n with
  | zero => omega
  | succ m ih =>
    intro _
    by_cases h2 : 2 ≤ m
    · have hih := ih h2
      have hstep : c3g (m + 1) = applyROp (c3g m) (ROp.access 3) := by
        unfold c3g
        rw [List.replicate_succ']
        rw [List.foldl_append]
        rfl
      rw [hstep, hih]
      dsimp only [applyROp]
      unfold record_access
      rw [show lookupNode [(1, (⟨1, false, [0, 1], 2⟩ : LrukNode)),
        (2, ⟨2, false, [2], 2⟩), (3, ⟨3, false, [m + 1, m + 2], 2⟩)] 3
        = some ⟨3, false, [m + 1, m + 2], 2⟩ from by simp [lookupNode]]
      dsimp only
      unfold LrukNode.insertHistoryTimestamp
      simp only [setNode, List.cons_append, List.nil_append,
        List.length_cons, List.length_nil]
      norm_num
      repeat' apply And.intro
      all_goals omega
    · have hm : m = 1 := by omega
      subst hm
      decide

/-- A reachable state at clock u64::MAX: frame 1 has a full history starting
at timestamp 0 (finite distance u64::MAX), frame 2 has one access (infinite
distance), frame 3 absorbed the remaining 2^64 - 4 accesses. -/
def c3bad : LrukReplacer :=
  ⟨[(1, ⟨1, true, [0, 1], 2⟩), (2, ⟨2, true, [2], 2⟩),
    (3, ⟨3, false, [UMAX - 2, UMAX - 1], 2⟩)], 2, UMAX, 2⟩

/-- The operation sequence reaching `c3bad`. -/
def c3ops : List ROp :=
  [ROp.access 1, ROp.access 1, ROp.access 2] ++
    List.replicate (UMAX - 3) (ROp.access 3) ++ [ROp.unpin 1, ROp.unpin 2]

theorem c3bad_reachable : ReachableR c3bad := by
  refine ⟨2, c3ops, ?_⟩
  unfold c3ops runOps
  rw [List.foldl_append, List.foldl_append]
  have hbase : List.foldl applyROp (LrukReplacer.mk_new 2)
      [ROp.access 1, ROp.access 1, ROp.access 2] = c3base := rfl
  rw [hbase]
  have hg : List.foldl applyROp c3base (List.replicate (UMAX - 3) (ROp.access 3))
      = c3g (UMAX - 3) := rfl
  rw [hg, c3g_closed (UMAX - 3) (by unfold UMAX; omega)]
  rw [show UMAX - 3 + 1 = UMAX - 2 from by unfold UMAX; omega]
  rw [show UMAX - 3 + 2 = UMAX - 1 from by unfold UMAX; omega]
  rw [show 3 + (UMAX - 3) = UMAX from by unfold UMAX; omega]
  decide

/-- C3 counterexample: the claim as stated fails at a reachable state.  At
clock u64::MAX (after 2^64 accesses), frame 1 has the finite backward
K-distance u64::MAX − 0, which collides with the sentinel the code uses for
+infinity; the tie-break then prefers frame 1 (earliest 0) although frame 2
is evictable with a genuinely infinite distance, so `evict` does not return
the frame with the largest backward K-distance. -/
theorem evict_sentinel_collision :
    ReachableR c3bad ∧
    (c3bad.evict).1 = some 1 ∧
    lookupNode c3bad.node_store 1 = some ⟨1, true, [0, 1], 2⟩ ∧
    lookupNode c3bad.node_store 2 = some ⟨2, true, [2], 2⟩ ∧
    specKDist ⟨1, true, [0, 1], 2⟩ c3bad.current_timestamp = some UMAX ∧
    specKDist ⟨2, true, [2], 2⟩ c3bad.current_timestamp = none ∧
    distBelow (specKDist ⟨1, true, [0, 1], 2⟩ c3bad.current_timestamp)
      (specKDist ⟨2, true, [2], 2⟩ c3bad.current_timestamp) := by
  refine ⟨c3bad_reachable, by decide, by decide, by decide, by decide, by decide, ?_⟩
  rw [show specKDist ⟨1, true, [0, 1], 2⟩ c3bad.current_timestamp = some UMAX from by decide,
    show specKDist ⟨2, true, [2], 2⟩ c3bad.current_timestamp = none from by decide]
  trivial
